import Mathlib

/-!
# Verification of the pedro-organiza core against its specification

This file shallowly embeds the core of the `pedro-organiza` repository in
Lean 4 and settles the specification claims about it:

* the apply engine of `src/api.py` (`startup_apply`, `select_delete_candidates`,
  `build_apply_plan`, `apply_deletions`, `save_apply_report`);
* the lock service of `src/backend/lock_service.py` and the apply orchestration
  of `src/backend/apply_service.py`;
* the per-field merge upsert of `src/backend/consolidate_music.py`
  (`analyze_files`) together with its staged-action creation;
* the text normalizer of `src/backend/normalization.py` (`normalize_text`);
* the alias views of `src/backend/consolidate_music.py` (`ensure_alias_views`)
  and the union-find clustering of `src/backend/cluster_service.py`
  (`UnionFind`, `build_duplicate_clusters`), plus the canonical-candidate
  selection of `src/backend/alias_engine.py` (`choose_canonical_candidate`).

Python strings are embedded as Lean `String`s except in the text normalizer,
where strings are embedded as lists of Unicode code points (`List Nat`) so that
the character-level stages can be stated exactly.  SQLite rows become Lean
structures; nullable columns become `Option`; the filesystem becomes an explicit
list of entries threaded through the functions that touch it.
-/

namespace Pedro

/-! ## Apply engine of `src/api.py`

The engine runs over three pieces of state: the `files` table of the active
staging database, the real filesystem, and the directory of persisted apply
reports.  `os.remove` is modelled by `osRemove` on an explicit filesystem: an
entry whose `removeFails` field is `some msg` makes `os.remove` raise with that
message (e.g. a permission error); removing a missing path raises as well. -/

/-- A row of the `files` table as used by the apply engine of `src/api.py`:
`id`, `original_path`, the `mark_delete` flag and the `delete_mode` column
(whose schema default is the text quarantine). -/
structure FileRow where
  id : Nat
  original_path : String
  mark_delete : Bool
  delete_mode : String
deriving DecidableEq, Repr

/-- One filesystem entry: a path that currently exists, together with an
optional failure `os.remove` would raise on it (permission denied, ...). -/
structure FsEntry where
  path : String
  removeFails : Option String
deriving DecidableEq, Repr

/-- Model of `os.remove`: raises `FileNotFoundError` on a missing path, raises
the recorded failure if the entry is not removable, otherwise returns the
filesystem without the entry. -/
def osRemove (fs : List FsEntry) (p : String) : Except String (List FsEntry) :=
  match fs.find? (fun f => f.path == p) with
  | none => Except.error ("FileNotFoundError: " ++ p)
  | some f =>
    match f.removeFails with
    | some msg => Except.error msg
    | none => Except.ok (fs.filter (fun g => g.path != p))

/-- Embedding of `ApplyFileResult` from `src/api.py`: one plan entry / result entry. -/
structure ApplyFileResult where
  file_id : Nat
  original_path : String
  planned_action : String
  status : String
  error : Option String
deriving DecidableEq, Repr

/-- Embedding of `ApplyRunSummary` from `src/api.py`. -/
structure ApplyRunSummary where
  total_candidates : Nat
  delete_planned_count : Nat
  delete_success_count : Nat
  delete_failure_count : Nat
  delete_skipped_count : Nat
deriving DecidableEq, Repr

/-- Embedding of `ApplyRunReport` from `src/api.py`. -/
structure ApplyRunReport where
  run_id : String
  started_at : String
  finished_at : String
  dry_run : Bool
  apply_deletions : Bool
  max_delete : Option Nat
  summary : ApplyRunSummary
  files : List ApplyFileResult
deriving DecidableEq, Repr

/-- Embedding of `ApplyRunPayload` from `src/api.py`. -/
structure ApplyRunPayload where
  apply_deletions : Bool
  dry_run : Bool
  max_delete : Option Nat
deriving DecidableEq, Repr

/-- The state `startup_apply` runs against: the `files` table of the active
database, the filesystem, the persisted report artifacts, the active-database
pointer together with whether the pointed-to file exists, and the clock. -/
structure ApiState where
  files : List FileRow
  fs : List FsEntry
  reports : List ApplyRunReport
  active_db : Option String
  active_db_exists : Bool
  now : String
deriving DecidableEq, Repr

/-- Embedding of `select_delete_candidates` from `src/api.py`:
`SELECT id, original_path FROM files WHERE mark_delete = 1 ORDER BY id`. -/
def select_delete_candidates (files : List FileRow) : List FileRow :=
  (files.filter (fun r => r.mark_delete)).insertionSort (fun a b => a.id ≤ b.id)

/-- Embedding of `build_apply_plan` from `src/api.py`: one `pending` entry per candidate. -/
def build_apply_plan (candidates : List FileRow) : List ApplyFileResult :=
  candidates.map (fun row =>
    { file_id := row.id
      original_path := row.original_path
      planned_action := "delete"
      status := "pending"
      error := none })

/-- Embedding of `apply_deletions` from `src/api.py`, as a recursion over the plan: per item,
try `os.remove`; on success delete the row from `files` and mark `deleted`; on
any failure mark `failed` with the captured error and continue. Returns the
final plan entries together with the updated `files` table and filesystem. -/
def apply_deletions (files : List FileRow) (fs : List FsEntry) :
    List ApplyFileResult → List ApplyFileResult × List FileRow × List FsEntry
  | [] => ([], files, fs)
  | item :: rest =>
    match osRemove fs item.original_path with
    | Except.ok fs' =>
      let files' := files.filter (fun r => r.id != item.file_id)
      let out := apply_deletions files' fs' rest
      ({ item with status := "deleted" } :: out.1, out.2)
    | Except.error e =>
      let out := apply_deletions files fs rest
      ({ item with status := "failed", error := some e } :: out.1, out.2)

/-- Embedding of `save_apply_report` from `src/api.py`: persist the report artifact. -/
def save_apply_report (reports : List ApplyRunReport) (report : ApplyRunReport) :
    List ApplyRunReport :=
  reports ++ [report]

/-- Embedding of `startup_apply` from `src/api.py` (`POST /startup/apply`): hard gate,
active-database checks, candidate selection, safety cap, dry-run branch, real
apply, summary and report persistence.  `HTTPException`s become `Except.error`
with the `detail` string. -/
def startup_apply (payload : ApplyRunPayload) (st : ApiState) :
    Except String (ApiState × ApplyRunReport) :=
  if ¬ payload.apply_deletions then
    Except.error "apply_deletions must be true to run apply engine"
  else match st.active_db with
  | none => Except.error "MUSIC_DB_NOT_SET"
  | some _ =>
    if ¬ st.active_db_exists then Except.error "ACTIVE_DB_MISSING"
    else
      let candidates := select_delete_candidates st.files
      let total_candidates := candidates.length
      let capExceeded : Bool :=
        match payload.max_delete with
        | some m => decide (total_candidates > m)
        | none => false
      if capExceeded then
        let files := candidates.map (fun row =>
          { file_id := row.id
            original_path := row.original_path
            planned_action := "delete"
            status := "skipped"
            error := some "MAX_DELETE_EXCEEDED" : ApplyFileResult })
        let summary : ApplyRunSummary :=
          { total_candidates := total_candidates
            delete_planned_count := total_candidates
            delete_success_count := 0
            delete_failure_count := 0
            delete_skipped_count := total_candidates }
        let report : ApplyRunReport :=
          { run_id := st.now
            started_at := st.now
            finished_at := st.now
            dry_run := payload.dry_run
            apply_deletions := payload.apply_deletions
            max_delete := payload.max_delete
            summary := summary
            files := files }
        Except.ok ({ st with reports := save_apply_report st.reports report }, report)
      else
        let plan := build_apply_plan candidates
        if payload.dry_run then
          let summary : ApplyRunSummary :=
            { total_candidates := total_candidates
              delete_planned_count := total_candidates
              delete_success_count := 0
              delete_failure_count := 0
              delete_skipped_count := 0 }
          let report : ApplyRunReport :=
            { run_id := st.now
              started_at := st.now
              finished_at := st.now
              dry_run := true
              apply_deletions := payload.apply_deletions
              max_delete := payload.max_delete
              summary := summary
              files := plan }
          Except.ok ({ st with reports := save_apply_report st.reports report }, report)
        else
          let out := apply_deletions st.files st.fs plan
          let plan2 := out.1
          let success := (plan2.filter (fun f => f.status == "deleted")).length
          let failed := (plan2.filter (fun f => f.status == "failed")).length
          let skipped := (plan2.filter (fun f => f.status == "skipped")).length
          let summary : ApplyRunSummary :=
            { total_candidates := total_candidates
              delete_planned_count := total_candidates
              delete_success_count := success
              delete_failure_count := failed
              delete_skipped_count := skipped }
          let report : ApplyRunReport :=
            { run_id := st.now
              started_at := st.now
              finished_at := st.now
              dry_run := false
              apply_deletions := payload.apply_deletions
              max_delete := payload.max_delete
              summary := summary
              files := plan2 }
          Except.ok
            ({ st with
                files := out.2.1
                fs := out.2.2
                reports := save_apply_report st.reports report }, report)

/-! ## Text normalization (`src/backend/normalization.py`)

Strings are embedded as lists of Unicode code points.  The two calls into the
external `unicodedata` collaborator -- whole-string NFKD normalization and the
combining-class test -- are parameters of the embedding (`UnicodeData`); the
idempotence theorem assumes only the two documented Unicode facts about them
(ASCII strings are NFKD-fixed and ASCII characters are not combining marks). -/

/-- Behavior of the `unicodedata` collaborator used by `normalize_text`:
whole-string NFKD normalization and the combining-mark test. -/
structure UnicodeData where
  nfkd : List Nat → List Nat
  combining : Nat → Bool

/-- Code points of a Lean string literal (used to transcribe the Python
string constants). -/
def strCodes (s : String) : List Nat :=
  s.toList.map Char.toNat

/-- The `NOISE_TOKENS` set of `src/backend/normalization.py`. -/
def NOISE_TOKENS : List (List Nat) :=
  [strCodes "remaster", strCodes "remastered", strCodes "mono", strCodes "stereo",
   strCodes "version", strCodes "edit", strCodes "mix", strCodes "deluxe",
   strCodes "expanded", strCodes "anniversary", strCodes "edition"]

/-- Character class of `RE_PUNCTUATION`: double quote, apostrophe, period,
comma, colon, semicolon, exclamation and question mark, parentheses, square
brackets and curly brackets. -/
def punctChars : List Nat :=
  [34, 39, 46, 44, 58, 59, 33, 63, 40, 41, 91, 93, 123, 125]

/-- Character class of `RE_SEPARATORS`: hyphen, underscore, slash. -/
def sepChars : List Nat :=
  [45, 95, 47]

/-- ASCII characters matched by the Python regex class backslash-s (and
stripped by `str.strip`): tab through carriage return, the four
information-separator controls, and space.  Only ASCII can reach the
whitespace stage, because it runs after the ASCII filter. -/
def wsChars : List Nat :=
  [9, 10, 11, 12, 13, 28, 29, 30, 31, 32]

/-- Test for the whitespace class. -/
def isWS (c : Nat) : Bool :=
  wsChars.contains c

/-- ASCII decimal digit test (the regex class backslash-d on ASCII input). -/
def isDigitCp (c : Nat) : Bool :=
  decide (48 ≤ c ∧ c ≤ 57)

/-- The regex `RE_DIGITS_ONLY` (anchored one-or-more digits) as a predicate on
a token. -/
def digitsOnly (t : List Nat) : Bool :=
  !t.isEmpty && t.all isDigitCp

/-- Python `str.lower` restricted to ASCII input (the lowercase stage runs
after the ASCII filter). -/
def toLowerCp (c : Nat) : Nat :=
  if 65 ≤ c ∧ c ≤ 90 then c + 32 else c

/-- ASCII membership, i.e. what `encode("ascii", "ignore")` keeps. -/
def isAsciiCp (c : Nat) : Bool :=
  decide (c < 128)

/-- Collapse adjacent spaces into one (the run-collapsing part of replacing
every whitespace run by a single space). -/
def squeezeSpaces : List Nat → List Nat
  | [] => []
  | a :: rest =>
    match squeezeSpaces rest with
    | [] => [a]
    | b :: tl => if a = 32 ∧ b = 32 then b :: tl else a :: b :: tl

/-- Drop leading and trailing spaces (after the whitespace map, every
whitespace character is already a space, so `str.strip` only sees spaces). -/
def stripSpaces (l : List Nat) : List Nat :=
  ((l.dropWhile (fun c => c == 32)).reverse.dropWhile (fun c => c == 32)).reverse

/-- The composite `RE_WHITESPACE.sub(" ", text).strip()`: mapping every
whitespace character to a space and then collapsing adjacent spaces is
extensionally the same as substituting each maximal whitespace run by one
space; stripping then removes the boundary spaces. -/
def wsNormalize (l : List Nat) : List Nat :=
  stripSpaces (squeezeSpaces (l.map (fun c => if isWS c then 32 else c)))

/-- Python `text.split(" ")`: split on every single space, keeping empty
segments. -/
def splitOnSpace : List Nat → List (List Nat)
  | [] => [[]]
  | c :: rest =>
    match splitOnSpace rest with
    | [] => [[c]]
    | w :: ws => if c = 32 then [] :: w :: ws else (c :: w) :: ws

/-- Python `" ".join(words)`. -/
def joinSpace : List (List Nat) → List Nat
  | [] => []
  | [w] => w
  | w :: ws => w ++ 32 :: joinSpace ws

/-- Stage 1 of `normalize_text`: NFKD normalization, removal of combining
marks, the minimal transliteration table (eth and capital Eth, code points 240
and 208, to the letter d, code point 100; single-character `str.replace` is a
character map), and the ASCII filter (`encode("ascii", "ignore")`). -/
def stageUnicode (ud : UnicodeData) (v : List Nat) : List Nat :=
  ((((ud.nfkd v).filter (fun c => !(ud.combining c))).map
      (fun c => if c = 240 then 100 else c)).map
    (fun c => if c = 208 then 100 else c)).filter isAsciiCp

/-- Stage 2 of `normalize_text`: lowercase. -/
def stageLower (l : List Nat) : List Nat :=
  l.map toLowerCp

/-- Stage 3a of `normalize_text`: punctuation to spaces. -/
def stagePunct (l : List Nat) : List Nat :=
  l.map (fun c => if punctChars.contains c then 32 else c)

/-- Stage 3b of `normalize_text`: separators to spaces. -/
def stageSep (l : List Nat) : List Nat :=
  l.map (fun c => if sepChars.contains c then 32 else c)

/-- Embedding of `normalize_text` from `src/backend/normalization.py`.
Stage 4 normalizes whitespace; stage 5 drops purely numeric tokens always and
noise tokens when a numeric token was present. -/
def normalize_text (ud : UnicodeData) (value : Option (List Nat)) : List Nat :=
  match value with
  | none => []
  | some v =>
    if v.isEmpty then []
    else
      let text := stageSep (stagePunct (stageLower (stageUnicode ud v)))
      let text := wsNormalize text
      if text.isEmpty then []
      else
        let tokens := splitOnSpace text
        let has_numeric_token := tokens.any digitsOnly
        let words := tokens.filter
          (fun t => !(digitsOnly t) && !(has_numeric_token && NOISE_TOKENS.contains t))
        wsNormalize (joinSpace words)

/-- The pairwise condition of a space-collapsed string: no two adjacent
spaces. -/
def noDouble (a b : Nat) : Prop :=
  ¬(a = 32 ∧ b = 32)

/-! ## Merge engine (`analyze_files` of `src/backend/consolidate_music.py`)

The upsert statement of `analyze_files` merges each metadata column with a
`CASE WHEN excluded.col IS NOT NULL AND ( ? = 0 OR col IS NULL )` clause whose
placeholder is bound to the Python string `"overwrite"` or `"no-overwrite"`.
The embedding therefore models SQLite values and the SQLite comparison
semantics of that bound parameter: a bound parameter and an integer literal
carry no column affinity, so they are compared by storage class, and a TEXT
value never equals an INTEGER value. -/

/-- A stored SQLite value (NULL, INTEGER or TEXT), as relevant to the upsert
of `analyze_files`. -/
inductive SQLiteValue where
  | vnull : SQLiteValue
  | vint : Int → SQLiteValue
  | vtext : String → SQLiteValue
deriving DecidableEq, Repr

/-- SQLite equality of two stored values as used in a WHEN condition: NULL
compares as not-true, and values of different storage classes are never equal
(without column affinity, no coercion applies; TEXT sorts after INTEGER). -/
def sqliteEq : SQLiteValue → SQLiteValue → Bool
  | SQLiteValue.vint a, SQLiteValue.vint b => a == b
  | SQLiteValue.vtext a, SQLiteValue.vtext b => a == b
  | _, _ => false

/-- The twenty metadata columns that `analyze_files` merges with the per-field
CASE clause (in the order of the UPDATE statement). -/
inductive MetaField where
  | artist | album_artist | album | title | track | track_total | disc | disc_total
  | genre | composer | year | bpm | comment | lyrics | publisher | duration
  | bitrate | fingerprint | is_compilation | recommended_path
deriving DecidableEq, Repr

/-- The value bound to each mode placeholder of the UPDATE statement:
`overwrite_mode = "no-overwrite" if no_overwrite else "overwrite"`. -/
def overwriteFlag (no_overwrite : Bool) : SQLiteValue :=
  SQLiteValue.vtext (if no_overwrite then "no-overwrite" else "overwrite")

/-- One per-field CASE clause of the upsert:
`CASE WHEN excluded.f IS NOT NULL AND ( ? = 0 OR f IS NULL ) THEN excluded.f
ELSE f END`, with the placeholder bound to `flag`. -/
def mergeField (flag : SQLiteValue) (existing incoming : Option String) : Option String :=
  if incoming ≠ none ∧ (sqliteEq flag (SQLiteValue.vint 0) = true ∨ existing = none)
  then incoming else existing

/-- Modelled from the spec: the per-field merge policy as the specification
states it -- OVERWRITE replaces every field with the newly observed non-null
value; FILL_MISSING_ONLY writes a field only if the existing value is null. -/
inductive MergePolicy where
  | OVERWRITE | FILL_MISSING_ONLY
deriving DecidableEq, Repr

/-- Modelled from the spec: per-field merge under the stated policy. -/
def mergeFieldSpec : MergePolicy → Option String → Option String → Option String
  | MergePolicy.OVERWRITE, existing, incoming =>
    match incoming with
    | some v => some v
    | none => existing
  | MergePolicy.FILL_MISSING_ONLY, existing, incoming =>
    match existing with
    | none => incoming
    | some v => some v

/-- A row of the `files` table as `analyze_files` reads and writes it.  The
metadata columns are modelled uniformly as nullable text; the four derived
normalized columns are code-point strings recomputed by `normalize_file_row`. -/
structure DbFileRow where
  id : Nat
  original_path : String
  sha256 : Option String
  size_bytes : Option Nat
  meta : MetaField → Option String
  lifecycle_state : String
  first_seen : String
  last_update : String
  artist_norm : List Nat
  album_artist_norm : List Nat
  album_norm : List Nat
  title_norm : List Nat

/-- A row of the `actions` ledger. -/
structure ActionRow where
  id : Nat
  file_id : Nat
  action : String
  src_path : String
  dst_path : Option String
  created_at : String
deriving DecidableEq, Repr

/-- The staging store as `analyze_files` sees it: the `files` table, the
`actions` ledger, and the autoincrement counters. -/
structure MergeDB where
  files : List DbFileRow
  actions : List ActionRow
  next_file_id : Nat
  next_action_id : Nat

/-- One scanned file: the path, the metadata returned by `extract_tags`, and
the values the mode guards may compute (`sha256_file`, file size,
`compute_fingerprint`, `recommended_path_for`; the recommended path is named
`rec_path` because `rec` is reserved in Lean). -/
structure ScanItem where
  path : String
  meta : MetaField → Option String
  sha : String
  size : Nat
  fp : Option String
  rec_path : Option String

/-- Embedding of `normalize_file_row` from `src/backend/consolidate_music.py`:
recompute the four normalized columns from the raw artist, album artist, album
and title via `normalize_text`. -/
def normalize_file_row (ud : UnicodeData) (row : DbFileRow) : DbFileRow :=
  { row with
      artist_norm := normalize_text ud ((row.meta MetaField.artist).map strCodes)
      album_artist_norm := normalize_text ud ((row.meta MetaField.album_artist).map strCodes)
      album_norm := normalize_text ud ((row.meta MetaField.album).map strCodes)
      title_norm := normalize_text ud ((row.meta MetaField.title).map strCodes) }

/-- The incoming (`excluded`) metadata values for one scan item under the mode
guards of `analyze_files`: the fingerprint only in full mode with
fingerprinting enabled, the recommended path only in full mode, the extracted
tags otherwise. -/
def incomingMeta (db_mode : String) (with_fingerprint : Bool) (item : ScanItem) :
    MetaField → Option String :=
  fun f =>
    match f with
    | MetaField.fingerprint =>
      if with_fingerprint ∧ db_mode = "full" then item.fp else none
    | MetaField.recommended_path =>
      if db_mode = "full" then item.rec_path else none
    | _ => item.meta f

/-- Processing of a single discovered file inside the loop of `analyze_files`:
mode guards, lookup by `original_path`, the INSERT .. ON CONFLICT DO UPDATE
with per-field CASE clauses, `normalize_file_row`, and the staged-action
insert for newly observed paths in full mode. -/
def analyzeOne (ud : UnicodeData) (db_mode : String) (no_overwrite : Bool)
    (lifecycle_state : String) (create_actions : Bool) (with_fingerprint : Bool)
    (now : String) (db : MergeDB) (item : ScanItem) : MergeDB :=
  let sha : Option String := if db_mode ≠ "db-update-only" then some item.sha else none
  let inc := incomingMeta db_mode with_fingerprint item
  let flag := overwriteFlag no_overwrite
  let is_new := (db.files.find? (fun r => r.original_path == item.path)).isNone
  if is_new then
    let row : DbFileRow :=
      { id := db.next_file_id
        original_path := item.path
        sha256 := sha
        size_bytes := some item.size
        meta := inc
        lifecycle_state := lifecycle_state
        first_seen := now
        last_update := now
        artist_norm := []
        album_artist_norm := []
        album_norm := []
        title_norm := [] }
    let row := normalize_file_row ud row
    let db := { db with files := db.files ++ [row], next_file_id := db.next_file_id + 1 }
    if is_new ∧ db_mode = "full" ∧ create_actions then
      { db with
          actions := db.actions ++
            [{ id := db.next_action_id
               file_id := row.id
               action := "move"
               src_path := item.path
               dst_path := item.rec_path
               created_at := now }]
          next_action_id := db.next_action_id + 1 }
    else db
  else
    { db with
        files := db.files.map (fun r =>
          if r.original_path == item.path then
            normalize_file_row ud
              { r with
                  sha256 := match sha with
                    | some s => some s
                    | none => r.sha256
                  size_bytes := some item.size
                  meta := fun f => mergeField flag (r.meta f) (inc f)
                  last_update := now }
          else r) }

/-- Embedding of the scan loop of `analyze_files` from
`src/backend/consolidate_music.py`: schema-only mode performs no scan; every
other mode folds `analyzeOne` over the discovered audio files. -/
def analyze_files (ud : UnicodeData) (db_mode : String) (no_overwrite : Bool)
    (lifecycle_state : String) (create_actions : Bool) (with_fingerprint : Bool)
    (now : String) (db : MergeDB) (items : List ScanItem) : MergeDB :=
  if db_mode = "schema-only" then db
  else
    items.foldl
      (analyzeOne ud db_mode no_overwrite lifecycle_state create_actions
        with_fingerprint now) db

/-! ## Lock service (`src/backend/lock_service.py`) and apply orchestration
(`src/backend/apply_service.py`)

A lock is a marker file in the lock directory; the set of held locks is
modelled as the list of their names.  `acquire_lock` is try-once: it raises
`LockError` when the marker already exists and never waits or retries.
`apply_actions` acquires the apply lock first, validates, optionally flips the
delete mode of flagged rows to permanent, and delegates the destructive work
to `execute_actions`; the lock is released on every exit path of the body. -/

/-- Embedding of `acquire_lock` from `src/backend/lock_service.py`: fail with
`LockError` if the named marker exists, otherwise create it.  Returns the new
lock set together with the acquired lock handle. -/
def acquire_lock (locks : List String) (name : String) :
    Except String (List String × String) :=
  if name ∈ locks then Except.error (name ++ " already running")
  else Except.ok (locks ++ [name], name)

/-- Embedding of `release_lock` from `src/backend/lock_service.py`: unlink the
marker if it exists; never raise. -/
def release_lock (locks : List String) (lock : String) : List String :=
  locks.filter (fun l => l != lock)

/-- A row of the backend `files` table as used by `apply_service` and
`execute_actions`: the delete intent lives in the `action` column, and
`delete_mode` selects quarantine relocation versus permanent removal. -/
structure BFileRow where
  id : Nat
  original_path : String
  action : Option String
  lifecycle_state : String
  delete_mode : String
deriving DecidableEq, Repr

/-- The state `apply_actions` runs against: held locks, the active-database
pointer, the quarantine root, the backend `files` table and the filesystem. -/
structure BackendState where
  locks : List String
  active_db : Option String
  active_db_exists : Bool
  quarantine_root : String
  files : List BFileRow
  fs : List FsEntry
deriving DecidableEq, Repr

/-- Arguments of `apply_actions` that the embedding models. -/
structure ApplyArgs where
  dry_run : Bool
  permanent_delete : Bool
  confirm_permanent : Bool
deriving DecidableEq, Repr

/-- Outcome of `apply_actions`: the `LockError` raised by `acquire_lock` (the
CONCURRENCY failure), a `RuntimeError` from the validation steps, or the
summary of per-item statuses. -/
inductive ApplyOutcome where
  | lockError (msg : String)
  | runtimeError (msg : String)
  | ok (summary : List (Nat × String))
deriving DecidableEq, Repr

/-- Relocation of a file into the quarantine root: the entry disappears from
its original path and reappears under the quarantine root. -/
def relocateToQuarantine (fs : List FsEntry) (qroot p : String) :
    Except String (List FsEntry) :=
  match fs.find? (fun f => f.path == p) with
  | none => Except.error ("FileNotFoundError: " ++ p)
  | some f =>
    match f.removeFails with
    | some msg => Except.error msg
    | none =>
      Except.ok ((fs.filter (fun g => g.path != p)) ++
        [{ path := qroot ++ p, removeFails := none }])

/-- Modelled from the spec: `execute_actions`, imported by
`src/backend/apply_service.py` from `backend.execute_actions`, a module that
is not present under the provided sources.  Following specification section
4.4 step 7: for each planned item attempt the destructive operation -- remove
the file from disk when its delete mode is permanent, otherwise relocate it
into the quarantine root; only on success remove its staging record and mark
it deleted; on any failure mark it failed and leave the staging record
untouched; continue with the next item.  A dry run reports every item as
pending and mutates nothing. -/
def execute_actions (qroot : String) (dry_run : Bool) (files : List BFileRow)
    (fs : List FsEntry) :
    List BFileRow → List (Nat × String) × List BFileRow × List FsEntry
  | [] => ([], files, fs)
  | item :: rest =>
    if dry_run then
      let out := execute_actions qroot dry_run files fs rest
      ((item.id, "pending") :: out.1, out.2)
    else
      let attempt :=
        if item.delete_mode = "permanent" then osRemove fs item.original_path
        else relocateToQuarantine fs qroot item.original_path
      match attempt with
      | Except.ok fs' =>
        let files' := files.filter (fun r => r.id != item.id)
        let out := execute_actions qroot dry_run files' fs' rest
        ((item.id, "deleted") :: out.1, out.2)
      | Except.error _e =>
        let out := execute_actions qroot dry_run files fs rest
        ((item.id, "failed") :: out.1, out.2)

/-- Modelled from the spec (section 4.4 step 3): delete candidates are
selected deterministically in ascending id order from the rows flagged for
deletion; the flag used by `apply_service` is the `action` column. -/
def backend_delete_candidates (files : List BFileRow) : List BFileRow :=
  (files.filter (fun r => r.action == some "delete")).insertionSort
    (fun a b => a.id ≤ b.id)

/-- The body of `apply_actions` from `src/backend/apply_service.py`, i.e. the
part that runs after the lock was acquired (and whose exceptions are caught by
the release guarantee): active-database validation, the
permanent-delete confirmation check, the schema-only `analyze_files` call
(which scans nothing and is the identity on the modelled state), the
`delete_mode` flip of flagged rows for confirmed permanent runs, and the
delegation to `execute_actions`. -/
def apply_actions_body (args : ApplyArgs) (st : BackendState) :
    BackendState × ApplyOutcome :=
  match st.active_db with
  | none => (st, ApplyOutcome.runtimeError "NO_ACTIVE_DB")
  | some _ =>
    if ¬ st.active_db_exists then
      (st, ApplyOutcome.runtimeError "ACTIVE_DB_NOT_FOUND")
    else if args.permanent_delete ∧ ¬ args.confirm_permanent then
      (st, ApplyOutcome.runtimeError "PERMANENT_DELETE_REQUIRES_CONFIRMATION")
    else
      let st2 :=
        if args.permanent_delete ∧ ¬ args.dry_run then
          { st with files := st.files.map (fun r =>
              if r.action == some "delete" ∧
                  r.lifecycle_state ≠ "applied" ∧ r.lifecycle_state ≠ "locked"
              then { r with delete_mode := "permanent" } else r) }
        else st
      let cands := backend_delete_candidates st2.files
      let out := execute_actions st2.quarantine_root args.dry_run st2.files st2.fs cands
      ({ st2 with files := out.2.1, fs := out.2.2 }, ApplyOutcome.ok out.1)

/-- Embedding of `apply_actions` from `src/backend/apply_service.py`: acquire
the named apply lock (failing immediately with `LockError` when it is already
held), run the body, and release the lock on every exit path. -/
def apply_actions (args : ApplyArgs) (st : BackendState) :
    BackendState × ApplyOutcome :=
  match acquire_lock st.locks "apply" with
  | Except.error msg => (st, ApplyOutcome.lockError msg)
  | Except.ok pr =>
    let st1 := { st with locks := pr.1 }
    let out := apply_actions_body args st1
    ({ out.1 with locks := release_lock out.1.locks pr.2 }, out.2)

/-! ## Alias views (`ensure_alias_views` of `src/backend/consolidate_music.py`)

The four signal views are self-joins of `files` on an equality condition with
`f1.id < f2.id`; `alias_pairs_all` is their UNION ALL; `alias_pair_confidence`
groups by the id pair, counting signals and summing strengths;
`alias_strong_edges` keeps pairs with at least two signals or aggregate
strength at least 1.5.  Strengths are embedded as rationals: every literal
(1.0, 0.9, 0.6, 0.4, 1.5) is an exact decimal and the threshold comparison is
only reached on a single literal, because two or more signals already satisfy
the count disjunct, so the rational embedding decides exactly as SQLite. -/

/-- A row of `files` as the alias views read it. -/
structure TrackRow where
  id : Nat
  sha256 : Option String
  fingerprint : Option String
  artist_norm : List Nat
  album_norm : List Nat
  title_norm : List Nat
deriving DecidableEq, Repr

/-- A row of one of the four signal views. -/
structure AliasSignal where
  file_id : Nat
  other_file_id : Nat
  signal_type : String
  strength : ℚ
deriving DecidableEq, Repr

/-- A self-join of the track table: all pairs accepted by the given join
condition, in table order. -/
def crossPairs (files : List TrackRow) (f : TrackRow → TrackRow → Option AliasSignal) :
    List AliasSignal :=
  files.flatMap (fun f1 => files.filterMap (fun f2 => f f1 f2))

/-- Embedding of the view `alias_pairs_sha256`: equal non-null `sha256`,
strength 1.0. -/
def alias_pairs_sha256 (files : List TrackRow) : List AliasSignal :=
  crossPairs files (fun f1 f2 =>
    if f1.sha256.isSome ∧ f1.sha256 = f2.sha256 ∧ f1.id < f2.id
    then some { file_id := f1.id, other_file_id := f2.id,
                signal_type := "sha256", strength := 1.0 }
    else none)

/-- Embedding of the view `alias_pairs_fingerprint`: equal non-null
`fingerprint`, strength 0.9. -/
def alias_pairs_fingerprint (files : List TrackRow) : List AliasSignal :=
  crossPairs files (fun f1 f2 =>
    if f1.fingerprint.isSome ∧ f1.fingerprint = f2.fingerprint ∧ f1.id < f2.id
    then some { file_id := f1.id, other_file_id := f2.id,
                signal_type := "fingerprint", strength := 0.9 }
    else none)

/-- Embedding of the view `alias_pairs_artist_title`: equal non-empty
normalized artist and title, strength 0.6. -/
def alias_pairs_artist_title (files : List TrackRow) : List AliasSignal :=
  crossPairs files (fun f1 f2 =>
    if f1.artist_norm = f2.artist_norm ∧ f1.title_norm = f2.title_norm ∧
        f1.id < f2.id ∧ f1.artist_norm ≠ [] ∧ f1.title_norm ≠ []
    then some { file_id := f1.id, other_file_id := f2.id,
                signal_type := "artist_title", strength := 0.6 }
    else none)

/-- Embedding of the view `alias_pairs_album_title`: equal non-empty
normalized album and title, strength 0.4. -/
def alias_pairs_album_title (files : List TrackRow) : List AliasSignal :=
  crossPairs files (fun f1 f2 =>
    if f1.album_norm = f2.album_norm ∧ f1.title_norm = f2.title_norm ∧
        f1.id < f2.id ∧ f1.album_norm ≠ [] ∧ f1.title_norm ≠ []
    then some { file_id := f1.id, other_file_id := f2.id,
                signal_type := "album_title", strength := 0.4 }
    else none)

/-- Embedding of the view `alias_pairs_all` (UNION ALL of the four signals). -/
def alias_pairs_all (files : List TrackRow) : List AliasSignal :=
  alias_pairs_sha256 files ++ alias_pairs_fingerprint files ++
    alias_pairs_artist_title files ++ alias_pairs_album_title files

/-- A row of `alias_pair_confidence` / `alias_strong_edges`. -/
structure PairConfidence where
  file_id : Nat
  other_file_id : Nat
  signal_count : Nat
  confidence_score : ℚ
deriving DecidableEq, Repr

/-- Embedding of the view `alias_pair_confidence`:
`GROUP BY file_id, other_file_id` with `COUNT(*)` and `SUM(strength)`. -/
def alias_pair_confidence (files : List TrackRow) : List PairConfidence :=
  let all := alias_pairs_all files
  ((all.map (fun e => (e.file_id, e.other_file_id))).dedup).map (fun pr =>
    let sig := all.filter (fun e => (e.file_id, e.other_file_id) == pr)
    { file_id := pr.1
      other_file_id := pr.2
      signal_count := sig.length
      confidence_score := (sig.map (fun e => e.strength)).sum })

/-- Embedding of the view `alias_strong_edges`:
`WHERE signal_count >= 2 OR confidence_score >= 1.5`. -/
def alias_strong_edges (files : List TrackRow) : List PairConfidence :=
  (alias_pair_confidence files).filter
    (fun r => 2 ≤ r.signal_count ∨ (1.5 : ℚ) ≤ r.confidence_score)

/-- The edge list `SELECT file_id, other_file_id FROM alias_strong_edges` that
`build_duplicate_clusters` consumes. -/
def strong_edge_pairs (files : List TrackRow) : List (Nat × Nat) :=
  (alias_strong_edges files).map (fun r => (r.file_id, r.other_file_id))

/-! ## Cluster service (`src/backend/cluster_service.py`)

The Python `UnionFind` keeps a dict from node to parent; a missing key behaves
as a self-parent the moment `find` first touches it.  The embedding keeps a
total parent function (self-parent outside the key set) plus the key list in
insertion order.  The `find` chase and the path-compression loop are embedded
with explicit fuel: under the smaller-root-wins discipline every parent is at
most its child, so a chase starting at `x` makes strictly decreasing steps and
fuel `x` always suffices to reach the root (at fuel zero the chase can only
stand at 0, which is its own parent); the fuel version is therefore
extensionally the Python while loop. -/

/-- The root chase of `UnionFind.find` (first while loop), with fuel. -/
def chase (p : Nat → Nat) : Nat → Nat → Nat
  | 0, x => x
  | fuel + 1, x => if p x = x then x else chase p fuel (p x)

/-- The root of `x` in parent map `p`. -/
def rootOf (p : Nat → Nat) (x : Nat) : Nat :=
  chase p x x

/-- The path-compression loop of `UnionFind.find` (second while loop): walk
the chain from `x` again, pointing every visited node at `root`; each step
reads the next node before overwriting the current one. -/
def compressPath (root : Nat) : (Nat → Nat) → Nat → Nat → Nat → Nat
  | p, 0, _ => p
  | p, fuel + 1, x =>
    if p x = x then p
    else
      let nxt := p x
      compressPath root (fun y => if y = x then root else p y) fuel nxt

/-- Embedding of the `UnionFind` state of `src/backend/cluster_service.py`:
the parent dict as a total function (self-parent off the key set) plus the
keys in insertion order. -/
structure UnionFind where
  parent : Nat → Nat
  keys : List Nat

/-- The empty union-find. -/
def UnionFind.init : UnionFind :=
  { parent := fun x => x, keys := [] }

/-- Embedding of `UnionFind.find`: a missing key is inserted as its own
parent and returned; otherwise chase the root and compress the path. -/
def UnionFind.find (uf : UnionFind) (x : Nat) : Nat × UnionFind :=
  if x ∈ uf.keys then
    let root := rootOf uf.parent x
    (root, { uf with parent := compressPath root uf.parent x x })
  else
    (x, { uf with keys := uf.keys ++ [x] })

/-- Embedding of `UnionFind.union`: find both roots; the numerically smaller
root becomes the parent of the larger. -/
def UnionFind.union (uf : UnionFind) (a b : Nat) : UnionFind :=
  let fa := uf.find a
  let ra := fa.1
  let fb := fa.2.find b
  let rb := fb.1
  let uf2 := fb.2
  if ra = rb then uf2
  else if ra < rb then
    { uf2 with parent := fun y => if y = rb then ra else uf2.parent y }
  else
    { uf2 with parent := fun y => if y = ra then rb else uf2.parent y }

/-- The `clusters[root].append(node)` step on the insertion-ordered
association list of clusters. -/
def groupStep (acc : List (Nat × List Nat)) (root node : Nat) :
    List (Nat × List Nat) :=
  match acc with
  | [] => [(root, [node])]
  | (r, ms) :: rest =>
    if r = root then (r, ms ++ [node]) :: rest
    else (r, ms) :: groupStep rest root node

/-- The grouping loop of `build_duplicate_clusters`: for every key (in
insertion order) find its root -- `find` keeps compressing -- and append the
node to its cluster. -/
def groupClusters (uf : UnionFind) : List (Nat × List Nat) × UnionFind :=
  uf.keys.foldl
    (fun pr node =>
      let f := pr.2.find node
      (groupStep pr.1 f.1 node, f.2))
    ([], uf)

/-- Ordering of the final cluster association list: by root id (the Python
`dict(sorted(clusters.items()))`; cluster keys are distinct, so sorting the
pairs lexicographically is sorting by root). -/
def clusterLe (a b : Nat × List Nat) : Prop :=
  a.1 ≤ b.1

instance : DecidableRel clusterLe := fun a b => by
  unfold clusterLe
  infer_instance

instance : IsTotal (Nat × List Nat) clusterLe :=
  ⟨fun a b => Nat.le_total a.1 b.1⟩

instance : IsTrans (Nat × List Nat) clusterLe :=
  ⟨fun _ _ _ h1 h2 => Nat.le_trans h1 h2⟩

/-- Embedding of `build_duplicate_clusters` from
`src/backend/cluster_service.py`: union all edges, group the keys by root,
sort each member list, and sort the clusters by root. -/
def build_duplicate_clusters (edges : List (Nat × Nat)) : List (Nat × List Nat) :=
  let uf := edges.foldl (fun s e => s.union e.1 e.2) UnionFind.init
  let grouped := (groupClusters uf).1
  let sortedMembers := grouped.map
    (fun rc => (rc.1, rc.2.insertionSort (fun a b => a ≤ b)))
  sortedMembers.insertionSort clusterLe

/-! ## Canonical candidate (`choose_canonical_candidate` of
`src/backend/alias_engine.py`)

Members are ranked by the Python key
`(-meta_score, path_len, id)` in ascending lexicographic order and the first
row wins; `meta_score` counts the truthy values among artist, album, title. -/

/-- A row as `choose_canonical_candidate` selects it:
`SELECT id, artist, album, title, LENGTH(original_path) AS path_len`. -/
structure CanonRow where
  id : Nat
  artist : Option String
  album : Option String
  title : Option String
  path_len : Nat
deriving DecidableEq, Repr

/-- Python truthiness of a nullable text column. -/
def truthy : Option String → Bool
  | none => false
  | some s => !s.isEmpty

/-- The `meta_score` of `choose_canonical_candidate`. -/
def metaScore (r : CanonRow) : Nat :=
  (if truthy r.artist then 1 else 0) + (if truthy r.album then 1 else 0) +
    (if truthy r.title then 1 else 0)

/-- The Python sort key `(-meta_score, path_len, id)`. -/
def canonKey (r : CanonRow) : Int × Nat × Nat :=
  (-(metaScore r : Int), r.path_len, r.id)

/-- Strict lexicographic order on the sort keys. -/
def keyLt (x y : Int × Nat × Nat) : Prop :=
  x.1 < y.1 ∨ (x.1 = y.1 ∧ (x.2.1 < y.2.1 ∨ (x.2.1 = y.2.1 ∧ x.2.2 < y.2.2)))

/-- The (total) comparison `sorted` uses on rows: ascending lexicographic
order of the keys. -/
def canonLe (a b : CanonRow) : Prop :=
  keyLt (canonKey a) (canonKey b) ∨ canonKey a = canonKey b

instance : DecidableRel canonLe := fun a b => by
  unfold canonLe keyLt
  infer_instance

instance : IsTotal CanonRow canonLe :=
  ⟨fun a b => by
    unfold canonLe keyLt
    generalize canonKey a = x
    generalize canonKey b = y
    obtain ⟨x1, x2, x3⟩ := x
    obtain ⟨y1, y2, y3⟩ := y
    simp only [Prod.mk.injEq]
    omega⟩

instance : IsTrans CanonRow canonLe :=
  ⟨fun a b c => by
    unfold canonLe keyLt
    generalize canonKey a = x
    generalize canonKey b = y
    generalize canonKey c = z
    obtain ⟨x1, x2, x3⟩ := x
    obtain ⟨y1, y2, y3⟩ := y
    obtain ⟨z1, z2, z3⟩ := z
    simp only [Prod.mk.injEq]
    omega⟩

/-- Embedding of `choose_canonical_candidate` from
`src/backend/alias_engine.py`: sort the member rows by the key and take the
first id (`None` on an empty member list, where Python would raise). -/
def choose_canonical_candidate (rows : List CanonRow) : Option Nat :=
  ((rows.insertionSort canonLe).head?).map (fun r => r.id)

/-! ## Specification-side notions for the clustering proofs

Connectivity over an edge set, and the invariant the union-find maintains:
parents never exceed their children (the smaller root always wins), parent
links stay inside the key set, nodes outside the key set are their own
parents, the keys are exactly the endpoints of the processed edges, and the
root function is constant on connected components, connected to its argument,
and bounded by every member of the component (hence the minimum). -/

/-- Parents never exceed their children. -/
def WF (p : Nat → Nat) : Prop :=
  ∀ x, p x ≤ x

/-- Every non-trivial parent link stays inside the key set. -/
def KeysClosed (uf : UnionFind) : Prop :=
  ∀ x, uf.parent x ≠ x → x ∈ uf.keys ∧ uf.parent x ∈ uf.keys

/-- Nodes outside the key set are their own parents (the dict convention). -/
def SelfOutside (uf : UnionFind) : Prop :=
  ∀ x, x ∉ uf.keys → uf.parent x = x

/-- The well-formedness of a union-find state, independent of any edge set. -/
def StateOK (uf : UnionFind) : Prop :=
  WF uf.parent ∧ KeysClosed uf ∧ SelfOutside uf ∧ uf.keys.Nodup

/-- One undirected step along an edge of `S`. -/
def estep (S : Set (Nat × Nat)) (a b : Nat) : Prop :=
  (a, b) ∈ S ∨ (b, a) ∈ S

/-- Connectivity: the reflexive-transitive closure of `estep S`. -/
def conn (S : Set (Nat × Nat)) : Nat → Nat → Prop :=
  Relation.ReflTransGen (estep S)

/-- The set of edges of an edge list (what connectivity, and hence the
clustering output, may depend on). -/
def edgeSet (l : List (Nat × Nat)) : Set (Nat × Nat) :=
  { e | e ∈ l }

/-- The full invariant tying a union-find state to the set of processed
edges. -/
structure Inv (S : Set (Nat × Nat)) (uf : UnionFind) : Prop where
  ok : StateOK uf
  keysIff : ∀ x, x ∈ uf.keys ↔ ∃ y, estep S x y
  sound : ∀ x, conn S x (rootOf uf.parent x)
  compat : ∀ x y, conn S x y → rootOf uf.parent x = rootOf uf.parent y
  minimal : ∀ x y, conn S x y → rootOf uf.parent x ≤ y

/-- Lookup in the cluster association list. -/
def lookupGroup : List (Nat × List Nat) → Nat → Option (List Nat)
  | [], _ => none
  | (r, ms) :: rest, q => if r = q then some ms else lookupGroup rest q

/-- The grouping fold of `groupClusters` with a frozen root function: once
path compression is seen to preserve every root, the stateful loop computes
exactly this pure fold over the key list. -/
def pureGroup (r : Nat → Nat) (keys : List Nat) : List (Nat × List Nat) :=
  keys.foldl (fun acc node => groupStep acc (r node) node) []

/-- Characters that survive to stage 4 of `normalize_text`: ASCII, fixed by
lowercasing, not punctuation, not a separator, and whitespace only if the
space itself. -/
def goodChar (c : Nat) : Bool :=
  decide (c < 128) && (toLowerCp c == c) && !(punctChars.contains c) &&
    !(sepChars.contains c) && (!(isWS c) || c == 32)

/-- Characters that may appear inside a token: good and not the space. -/
def tokenChar (c : Nat) : Bool :=
  goodChar c && !(c == 32)

/-! # Theorems

First the supporting lemmas, then one theorem per claim (with a closed
witness where the theorem carries hypotheses). -/

/-! ## Apply engine: supporting lemmas -/

theorem build_apply_plan_pending (c : List FileRow) :
    ∀ f ∈ build_apply_plan c, f.status = "pending" ∧ f.error = none := by
  intro f hf
  simp only [build_apply_plan, List.mem_map] at hf
  obtain ⟨row, _, rfl⟩ := hf
  exact ⟨rfl, rfl⟩

/-- C4: if a max-delete cap is configured and the delete candidates exceed it,
the apply run aborts before any mutation: the returned state differs from the
input state only by the persisted report, every candidate appears in the
report as skipped with the cap-exceeded reason, and the success and failure
counts are zero. -/
theorem safety_cap_aborts (payload : ApplyRunPayload) (st : ApiState)
    (dbp : String) (m : Nat)
    (h1 : payload.apply_deletions = true)
    (hdb : st.active_db = some dbp)
    (hex : st.active_db_exists = true)
    (hm : payload.max_delete = some m)
    (hcap : m < (select_delete_candidates st.files).length) :
    ∃ report,
      startup_apply payload st =
        Except.ok ({ st with reports := st.reports ++ [report] }, report) ∧
      (∀ f ∈ report.files, f.status = "skipped" ∧ f.error = some "MAX_DELETE_EXCEEDED") ∧
      report.summary.delete_success_count = 0 ∧
      report.summary.delete_failure_count = 0 ∧
      report.summary.delete_skipped_count = (select_delete_candidates st.files).length ∧
      report.files.length = (select_delete_candidates st.files).length := by
  have hcap' : decide ((select_delete_candidates st.files).length > m) = true :=
    decide_eq_true hcap
  simp only [startup_apply, h1, hdb, hex, hm, save_apply_report, not_true,
    if_false, ite_false, Bool.false_eq_true, hcap', if_true, ite_true]
  refine ⟨_, rfl, ?_, rfl, rfl, rfl, by simp⟩
  intro f hf
  simp only [List.mem_map] at hf
  obtain ⟨row, _, rfl⟩ := hf
  exact ⟨rfl, rfl⟩

/-- C3: an apply run with the dry-run flag (below the cap, through the gates)
mutates neither the filesystem nor the staging store: the returned state
differs from the input state only by the persisted report artifact, and every
plan entry of the returned report has status pending. -/
theorem dry_run_purity (payload : ApplyRunPayload) (st : ApiState) (dbp : String)
    (h1 : payload.apply_deletions = true)
    (h2 : payload.dry_run = true)
    (hdb : st.active_db = some dbp)
    (hex : st.active_db_exists = true)
    (hcap : ∀ m, payload.max_delete = some m →
      (select_delete_candidates st.files).length ≤ m) :
    ∃ report,
      startup_apply payload st =
        Except.ok ({ st with reports := st.reports ++ [report] }, report) ∧
      (∀ f ∈ report.files, f.status = "pending") ∧
      report.dry_run = true ∧
      report.files.length = (select_delete_candidates st.files).length := by
  cases hm : payload.max_delete with
  | none =>
    simp only [startup_apply, h1, h2, hdb, hex, hm, save_apply_report, not_true,
      if_false, ite_false, Bool.false_eq_true, if_true, ite_true]
    refine ⟨_, rfl, ?_, rfl, by simp [build_apply_plan]⟩
    intro f hf
    exact (build_apply_plan_pending _ f hf).1
  | some m =>
    have hle := hcap m hm
    have hcap' : decide ((select_delete_candidates st.files).length > m) = false :=
      decide_eq_false (Nat.not_lt.mpr hle)
    simp only [startup_apply, h1, h2, hdb, hex, hm, save_apply_report, not_true,
      if_false, ite_false, Bool.false_eq_true, hcap', if_true, ite_true]
    refine ⟨_, rfl, ?_, rfl, by simp [build_apply_plan]⟩
    intro f hf
    exact (build_apply_plan_pending _ f hf).1

theorem osRemove_ok_eq (fs : List FsEntry) (p : String) (fs' : List FsEntry)
    (h : osRemove fs p = Except.ok fs') :
    fs' = fs.filter (fun g => g.path != p) := by
  unfold osRemove at h
  split at h
  · cases h
  · split at h
    · cases h
    · simp only [Except.ok.injEq] at h
      exact h.symm

theorem apply_deletions_shape (plan : List ApplyFileResult) :
    ∀ files fs,
      (apply_deletions files fs plan).1.map
          (fun f => (f.file_id, f.original_path, f.planned_action)) =
        plan.map (fun f => (f.file_id, f.original_path, f.planned_action)) := by
  induction plan with
  | nil => intro files fs; rfl
  | cons item rest ih =>
    intro files fs
    simp only [apply_deletions]
    cases osRemove fs item.original_path with
    | ok fs' => simp [ih]
    | error e => simp [ih]

theorem apply_deletions_status (plan : List ApplyFileResult) :
    ∀ files fs, ∀ f ∈ (apply_deletions files fs plan).1,
      f.status = "deleted" ∨ (f.status = "failed" ∧ f.error ≠ none) := by
  induction plan with
  | nil => intro files fs f hf; simp [apply_deletions] at hf
  | cons item rest ih =>
    intro files fs f hf
    simp only [apply_deletions] at hf
    cases hrem : osRemove fs item.original_path with
    | ok fs' =>
      rw [hrem] at hf
      simp only [List.mem_cons] at hf
      rcases hf with rfl | hf
      · exact Or.inl rfl
      · exact ih _ _ f hf
    | error e =>
      rw [hrem] at hf
      simp only [List.mem_cons] at hf
      rcases hf with rfl | hf
      · exact Or.inr ⟨rfl, by simp⟩
      · exact ih _ _ f hf

theorem apply_deletions_files_mem (plan : List ApplyFileResult) :
    ∀ files fs, ∀ r ∈ (apply_deletions files fs plan).2.1, r ∈ files := by
  induction plan with
  | nil => intro files fs r hr; exact hr
  | cons item rest ih =>
    intro files fs r hr
    simp only [apply_deletions] at hr
    cases hrem : osRemove fs item.original_path with
    | ok fs' =>
      rw [hrem] at hr
      exact List.mem_of_mem_filter (ih _ _ r hr)
    | error e =>
      rw [hrem] at hr
      exact ih _ _ r hr

theorem apply_deletions_fs_mem (plan : List ApplyFileResult) :
    ∀ files fs, ∀ e ∈ (apply_deletions files fs plan).2.2, e ∈ fs := by
  induction plan with
  | nil => intro files fs e he; exact he
  | cons item rest ih =>
    intro files fs e he
    simp only [apply_deletions] at he
    cases hrem : osRemove fs item.original_path with
    | ok fs' =>
      rw [hrem] at he
      have he' := ih _ _ e he
      rw [osRemove_ok_eq fs item.original_path fs' hrem] at he'
      exact List.mem_of_mem_filter he'
    | error e0 =>
      rw [hrem] at he
      exact ih _ _ e he

theorem apply_deletions_preserved (plan : List ApplyFileResult) :
    ∀ files fs, ∀ r ∈ files,
      r.id ∉ plan.map (fun f => f.file_id) →
      r ∈ (apply_deletions files fs plan).2.1 := by
  induction plan with
  | nil => intro files fs r hr _; exact hr
  | cons item rest ih =>
    intro files fs r hr hn
    simp only [List.map_cons, List.mem_cons, not_or] at hn
    simp only [apply_deletions]
    cases hrem : osRemove fs item.original_path with
    | ok fs' =>
      refine ih _ _ r ?_ hn.2
      refine List.mem_filter.mpr ⟨hr, ?_⟩
      simp [hn.1]
    | error e => exact ih _ _ r hr hn.2

theorem apply_deletions_deleted_gone (plan : List ApplyFileResult) :
    ∀ files fs, ∀ f ∈ (apply_deletions files fs plan).1, f.status = "deleted" →
      ∀ r ∈ (apply_deletions files fs plan).2.1, r.id ≠ f.file_id := by
  induction plan with
  | nil => intro files fs f hf; simp [apply_deletions] at hf
  | cons item rest ih =>
    intro files fs f hf hdel r hr
    simp only [apply_deletions] at hf hr
    cases hrem : osRemove fs item.original_path with
    | ok fs' =>
      rw [hrem] at hf hr
      simp only [List.mem_cons] at hf
      rcases hf with rfl | hf
      · have hr' := apply_deletions_files_mem rest _ fs' r hr
        have := List.of_mem_filter hr'
        simpa using this
      · exact ih _ _ f hf hdel r hr
    | error e =>
      rw [hrem] at hf hr
      simp only [List.mem_cons] at hf
      rcases hf with rfl | hf
      · simp at hdel
      · exact ih _ _ f hf hdel r hr

theorem apply_deletions_failed_present (plan : List ApplyFileResult) :
    ∀ files fs,
      (plan.map (fun f => f.file_id)).Nodup →
      (∀ item ∈ plan, ∃ r ∈ files, r.id = item.file_id) →
      ∀ f ∈ (apply_deletions files fs plan).1, f.status = "failed" →
        ∃ r ∈ (apply_deletions files fs plan).2.1, r.id = f.file_id := by
  induction plan with
  | nil => intro files fs _ _ f hf; simp [apply_deletions] at hf
  | cons item rest ih =>
    intro files fs hnd hmem f hf hfail
    simp only [List.map_cons, List.nodup_cons] at hnd
    simp only [apply_deletions] at hf
    cases hrem : osRemove fs item.original_path with
    | ok fs' =>
      rw [hrem] at hf
      simp only [apply_deletions, hrem]
      simp only [List.mem_cons] at hf
      rcases hf with rfl | hf
      · simp at hfail
      · refine ih _ _ hnd.2 ?_ f hf hfail
        intro item' hitem'
        obtain ⟨r, hr, hid⟩ := hmem item' (List.mem_cons_of_mem _ hitem')
        refine ⟨r, List.mem_filter.mpr ⟨hr, ?_⟩, hid⟩
        have : item'.file_id ≠ item.file_id := by
          intro hcontra
          exact hnd.1 (hcontra ▸ List.mem_map_of_mem (fun f => f.file_id) hitem')
        simp [hid, this]
    | error e =>
      rw [hrem] at hf
      simp only [apply_deletions, hrem]
      simp only [List.mem_cons] at hf
      rcases hf with rfl | hf
      · obtain ⟨r, hr, hid⟩ := hmem item (List.mem_cons_self _ _)
        refine ⟨r, ?_, hid⟩
        refine apply_deletions_preserved rest _ _ r hr ?_
        intro hcontra
        apply hnd.1
        rw [← hid]
        exact hcontra
      · exact ih _ _ hnd.2
          (fun item' h => hmem item' (List.mem_cons_of_mem _ h)) f hf hfail

theorem apply_deletions_counts (plan : List ApplyFileResult) :
    ∀ files fs,
      ((apply_deletions files fs plan).1.filter
          (fun f => f.status == "deleted")).length +
        ((apply_deletions files fs plan).1.filter
          (fun f => f.status == "failed")).length +
        ((apply_deletions files fs plan).1.filter
          (fun f => f.status == "skipped")).length = plan.length := by
  induction plan with
  | nil => intro files fs; rfl
  | cons item rest ih =>
    intro files fs
    simp only [apply_deletions]
    cases hrem : osRemove fs item.original_path with
    | ok fs' =>
      have := ih (files.filter (fun r => r.id != item.file_id)) fs'
      simp only [List.filter_cons,
        show (("deleted" : String) == "deleted") = true from rfl,
        show (("deleted" : String) == "failed") = false from rfl,
        show (("deleted" : String) == "skipped") = false from rfl,
        Bool.false_eq_true, if_true, if_false, ite_true, ite_false, List.length_cons]
      omega
    | error e =>
      have := ih files fs
      simp only [List.filter_cons,
        show (("failed" : String) == "deleted") = false from rfl,
        show (("failed" : String) == "failed") = true from rfl,
        show (("failed" : String) == "skipped") = false from rfl,
        Bool.false_eq_true, if_true, if_false, ite_true, ite_false, List.length_cons]
      omega

theorem select_delete_candidates_sub (files : List FileRow) :
    ∀ r ∈ select_delete_candidates files, r ∈ files := by
  intro r hr
  have hperm := List.perm_insertionSort
    (fun a b : FileRow => a.id ≤ b.id) (files.filter (fun r => r.mark_delete))
  exact List.mem_of_mem_filter (hperm.mem_iff.mp hr)

theorem select_delete_candidates_nodup (files : List FileRow)
    (h : (files.map (fun r => r.id)).Nodup) :
    ((select_delete_candidates files).map (fun r => r.id)).Nodup := by
  have hperm := List.perm_insertionSort
    (fun a b : FileRow => a.id ≤ b.id) (files.filter (fun r => r.mark_delete))
  have hsub : (files.filter (fun r => r.mark_delete)).Sublist files :=
    List.filter_sublist files
  have hnd : ((files.filter (fun r => r.mark_delete)).map (fun r => r.id)).Nodup :=
    (hsub.map (fun r => r.id)).nodup h
  exact ((hperm.map (fun r => r.id)).nodup_iff).mpr hnd

theorem build_apply_plan_ids (c : List FileRow) :
    (build_apply_plan c).map (fun f => f.file_id) = c.map (fun r => r.id) := by
  simp [build_apply_plan, List.map_map]

/-- C5: in a real apply run (gates passed, cap not exceeded, dry-run off, ids
unique), per-item failure is isolated: the run returns a report covering every
candidate; every candidate ends deleted or failed (none is left pending and
the batch never aborts); a failed candidate carries its captured error and its
staging record is still present afterwards; a deleted candidate's staging
record is gone; and succeeded plus failed plus skipped equals the number of
candidates. -/
theorem partial_failure_isolation (payload : ApplyRunPayload) (st : ApiState)
    (dbp : String)
    (h1 : payload.apply_deletions = true)
    (h2 : payload.dry_run = false)
    (hdb : st.active_db = some dbp)
    (hex : st.active_db_exists = true)
    (hnodup : (st.files.map (fun r => r.id)).Nodup)
    (hcap : ∀ m, payload.max_delete = some m →
      (select_delete_candidates st.files).length ≤ m) :
    ∃ st' report,
      startup_apply payload st = Except.ok (st', report) ∧
      report.files.length = (select_delete_candidates st.files).length ∧
      (∀ f ∈ report.files,
        f.status = "deleted" ∨ (f.status = "failed" ∧ f.error ≠ none)) ∧
      (∀ f ∈ report.files, f.status = "deleted" →
        ∀ r ∈ st'.files, r.id ≠ f.file_id) ∧
      (∀ f ∈ report.files, f.status = "failed" →
        ∃ r ∈ st'.files, r.id = f.file_id) ∧
      report.summary.delete_success_count + report.summary.delete_failure_count +
          report.summary.delete_skipped_count = report.summary.total_candidates ∧
      st'.reports = st.reports ++ [report] := by
  have hplan_len : (build_apply_plan (select_delete_candidates st.files)).length =
      (select_delete_candidates st.files).length := by
    simp [build_apply_plan]
  have hplan_ids :
      ((build_apply_plan (select_delete_candidates st.files)).map
        (fun f => f.file_id)).Nodup := by
    rw [build_apply_plan_ids]
    exact select_delete_candidates_nodup st.files hnodup
  have hplan_mem : ∀ item ∈ build_apply_plan (select_delete_candidates st.files),
      ∃ r ∈ st.files, r.id = item.file_id := by
    intro item hitem
    simp only [build_apply_plan, List.mem_map] at hitem
    obtain ⟨row, hrow, rfl⟩ := hitem
    exact ⟨row, select_delete_candidates_sub st.files row hrow, rfl⟩
  have hlen : ∀ files fs plan,
      (apply_deletions files fs plan).1.length = plan.length := by
    intro files fs plan
    have := congrArg List.length (apply_deletions_shape plan files fs)
    simpa using this
  cases hm : payload.max_delete with
  | none =>
    simp only [startup_apply, h1, h2, hdb, hex, hm, save_apply_report, not_true,
      if_false, ite_false, Bool.false_eq_true, if_true, ite_true]
    refine ⟨_, _, rfl, ?_, ?_, ?_, ?_, ?_, rfl⟩
    · rw [hlen, hplan_len]
    · exact apply_deletions_status _ _ _
    · exact apply_deletions_deleted_gone _ _ _
    · exact apply_deletions_failed_present _ _ _ hplan_ids hplan_mem
    · have := apply_deletions_counts
        (build_apply_plan (select_delete_candidates st.files)) st.files st.fs
      simp only [this, hplan_len]
  | some m =>
    have hle := hcap m hm
    have hcap' : decide ((select_delete_candidates st.files).length > m) = false :=
      decide_eq_false (Nat.not_lt.mpr hle)
    simp only [startup_apply, h1, h2, hdb, hex, hm, save_apply_report, not_true,
      if_false, ite_false, Bool.false_eq_true, hcap', if_true, ite_true]
    refine ⟨_, _, rfl, ?_, ?_, ?_, ?_, ?_, rfl⟩
    · rw [hlen, hplan_len]
    · exact apply_deletions_status _ _ _
    · exact apply_deletions_deleted_gone _ _ _
    · exact apply_deletions_failed_present _ _ _ hplan_ids hplan_mem
    · have := apply_deletions_counts
        (build_apply_plan (select_delete_candidates st.files)) st.files st.fs
      simp only [this, hplan_len]

theorem apply_deletions_mode_blind (m : String) (plan : List ApplyFileResult) :
    ∀ files fs,
      apply_deletions (files.map (fun r => { r with delete_mode := m })) fs plan =
        ((apply_deletions files fs plan).1,
          (apply_deletions files fs plan).2.1.map (fun r => { r with delete_mode := m }),
          (apply_deletions files fs plan).2.2) := by
  induction plan with
  | nil => intro files fs; rfl
  | cons item rest ih =>
    intro files fs
    cases hrem : osRemove fs item.original_path with
    | ok fs' =>
      have hfilter :
          (files.map (fun r => { r with delete_mode := m })).filter
              (fun r => r.id != item.file_id) =
            (files.filter (fun r => r.id != item.file_id)).map
              (fun r => { r with delete_mode := m }) := by
        rw [List.filter_map]
        rfl
      simp only [apply_deletions, hrem, hfilter, ih]
    | error e => simp only [apply_deletions, hrem, ih]

theorem apply_deletions_deleted_path_gone (plan : List ApplyFileResult) :
    ∀ files fs, ∀ f ∈ (apply_deletions files fs plan).1, f.status = "deleted" →
      ∀ e ∈ (apply_deletions files fs plan).2.2, e.path ≠ f.original_path := by
  induction plan with
  | nil => intro files fs f hf; simp [apply_deletions] at hf
  | cons item rest ih =>
    intro files fs f hf hdel e he
    simp only [apply_deletions] at hf he
    cases hrem : osRemove fs item.original_path with
    | ok fs' =>
      rw [hrem] at hf he
      simp only [List.mem_cons] at hf
      rcases hf with rfl | hf
      · have he' := apply_deletions_fs_mem rest _ fs' e he
        rw [osRemove_ok_eq fs item.original_path fs' hrem] at he'
        have := List.of_mem_filter he'
        simpa using this
      · exact ih _ _ f hf hdel e he
    | error e0 =>
      rw [hrem] at hf he
      simp only [List.mem_cons] at hf
      rcases hf with rfl | hf
      · simp at hdel
      · exact ih _ _ f hf hdel e he

/-- C6 counterexample: a real api-engine apply run on a candidate whose
delete mode is quarantine erases the file from disk (the filesystem is empty
afterwards, so nothing was relocated anywhere) and reports it deleted,
refuting the claim that a quarantine-mode candidate is relocated instead of
erased and that only permanent-mode candidates are removed from disk. -/
theorem quarantine_mode_counterexample :
    (startup_apply { apply_deletions := true, dry_run := false, max_delete := none }
        { files := [{ id := 1, original_path := "/music/a.mp3",
                      mark_delete := true, delete_mode := "quarantine" }]
          fs := [{ path := "/music/a.mp3", removeFails := none }]
          reports := []
          active_db := some "db"
          active_db_exists := true
          now := "t" }).toOption.map
        (fun pr => (pr.1.fs, pr.2.files.map (fun f => f.status))) =
      some ([], ["deleted"]) := by
  rfl

/-- C6 amended: in the api engine (`apply_deletions` of `src/api.py`) the
configured delete mode does not influence the destructive operation at all -
rewriting every delete mode yields the same plan results and the same
filesystem, and every successfully applied candidate is removed from disk
(its path is absent afterwards) whatever its mode; the mode-dependent
behavior exists only in the `execute_actions` engine used by the apply
service (modelled from the spec), which relocates a non-permanent candidate
into the quarantine root and removes a permanent-mode candidate from disk. -/
theorem delete_mode_amended :
    (∀ (m : String) (plan : List ApplyFileResult) (files : List FileRow)
        (fs : List FsEntry),
      apply_deletions (files.map (fun r => { r with delete_mode := m })) fs plan =
        ((apply_deletions files fs plan).1,
          (apply_deletions files fs plan).2.1.map (fun r => { r with delete_mode := m }),
          (apply_deletions files fs plan).2.2)) ∧
    (∀ (plan : List ApplyFileResult) (files : List FileRow) (fs : List FsEntry),
      ∀ f ∈ (apply_deletions files fs plan).1, f.status = "deleted" →
        ∀ e ∈ (apply_deletions files fs plan).2.2, e.path ≠ f.original_path) ∧
    (∀ (qroot : String) (files : List BFileRow) (fs : List FsEntry)
        (item : BFileRow) (entry : FsEntry),
      fs.find? (fun f => f.path == item.original_path) = some entry →
      entry.removeFails = none →
      item.delete_mode ≠ "permanent" →
      execute_actions qroot false files fs [item] =
        ([(item.id, "deleted")], files.filter (fun r => r.id != item.id),
          (fs.filter (fun g => g.path != item.original_path)) ++
            [{ path := qroot ++ item.original_path, removeFails := none }])) ∧
    (∀ (qroot : String) (files : List BFileRow) (fs : List FsEntry)
        (item : BFileRow) (entry : FsEntry),
      fs.find? (fun f => f.path == item.original_path) = some entry →
      entry.removeFails = none →
      item.delete_mode = "permanent" →
      execute_actions qroot false files fs [item] =
        ([(item.id, "deleted")], files.filter (fun r => r.id != item.id),
          fs.filter (fun g => g.path != item.original_path))) := by
  refine ⟨fun m plan files fs => apply_deletions_mode_blind m plan files fs,
    fun plan files fs => apply_deletions_deleted_path_gone plan files fs,
    ?_, ?_⟩
  · intro qroot files fs item entry hfind hok hmode
    simp only [execute_actions, Bool.false_eq_true, if_false, ite_false, hmode,
      relocateToQuarantine, hfind, hok]
  · intro qroot files fs item entry hfind hok hmode
    simp only [execute_actions, Bool.false_eq_true, if_false, ite_false, hmode,
      if_true, ite_true, osRemove, hfind, hok]

/-- Closed witness for the amended C6 theorem, applying it at a concrete
quarantine-mode and a concrete permanent-mode candidate. -/
theorem delete_mode_amended_witness :
    execute_actions "/q" false
        [{ id := 1, original_path := "/b.mp3", action := some "delete",
           lifecycle_state := "ANALYZED", delete_mode := "quarantine" }]
        [{ path := "/b.mp3", removeFails := none }]
        [{ id := 1, original_path := "/b.mp3", action := some "delete",
           lifecycle_state := "ANALYZED", delete_mode := "quarantine" }] =
      ([(1, "deleted")], [],
        [{ path := "/q/b.mp3", removeFails := none }]) ∧
    execute_actions "/q" false
        [{ id := 1, original_path := "/b.mp3", action := some "delete",
           lifecycle_state := "ANALYZED", delete_mode := "permanent" }]
        [{ path := "/b.mp3", removeFails := none }]
        [{ id := 1, original_path := "/b.mp3", action := some "delete",
           lifecycle_state := "ANALYZED", delete_mode := "permanent" }] =
      ([(1, "deleted")], [], []) := by
  constructor
  · have h := delete_mode_amended.2.2.1 "/q"
      [{ id := 1, original_path := "/b.mp3", action := some "delete",
         lifecycle_state := "ANALYZED", delete_mode := "quarantine" }]
      [{ path := "/b.mp3", removeFails := none }]
      { id := 1, original_path := "/b.mp3", action := some "delete",
        lifecycle_state := "ANALYZED", delete_mode := "quarantine" }
      { path := "/b.mp3", removeFails := none } (by rfl) (by rfl) (by decide)
    simpa using h
  · have h := delete_mode_amended.2.2.2 "/q"
      [{ id := 1, original_path := "/b.mp3", action := some "delete",
         lifecycle_state := "ANALYZED", delete_mode := "permanent" }]
      [{ path := "/b.mp3", removeFails := none }]
      { id := 1, original_path := "/b.mp3", action := some "delete",
        lifecycle_state := "ANALYZED", delete_mode := "permanent" }
      { path := "/b.mp3", removeFails := none } (by rfl) (by rfl) (by rfl)
    simpa using h

/-- C7: an apply invocation made while the named apply lock is already held
fails immediately with the CONCURRENCY error (the `LockError` raised by the
try-once `acquire_lock`, which never waits or retries) and performs no
filesystem or staging-store mutation: the state is returned untouched. -/
theorem lock_exclusivity (args : ApplyArgs) (st : BackendState)
    (h : "apply" ∈ st.locks) :
    ∃ msg, apply_actions args st = (st, ApplyOutcome.lockError msg) := by
  simp only [apply_actions, acquire_lock, h, if_true, ite_true]
  exact ⟨_, rfl⟩

/-- Closed witness for C7 at a concrete held-lock state. -/
theorem lock_exclusivity_witness :
    ∃ msg, apply_actions ⟨false, false, false⟩
        ⟨["apply"], some "db", true, "/q", [], []⟩ =
      (⟨["apply"], some "db", true, "/q", [], []⟩, ApplyOutcome.lockError msg) :=
  lock_exclusivity ⟨false, false, false⟩
    ⟨["apply"], some "db", true, "/q", [], []⟩ (by simp)

/-- Closed witness for C3 at a concrete state with one candidate below the
cap. -/
theorem dry_run_purity_witness :
    ∃ report,
      startup_apply ⟨true, true, some 5⟩
          ⟨[⟨1, "/a.mp3", true, "quarantine"⟩], [⟨"/a.mp3", none⟩], [],
            some "db", true, "t"⟩ =
        Except.ok
          ({ (⟨[⟨1, "/a.mp3", true, "quarantine"⟩], [⟨"/a.mp3", none⟩], [],
              some "db", true, "t"⟩ : ApiState) with
              reports := ([] : List ApplyRunReport) ++ [report] }, report) ∧
      (∀ f ∈ report.files, f.status = "pending") ∧
      report.dry_run = true ∧
      report.files.length =
        (select_delete_candidates
          [⟨1, "/a.mp3", true, "quarantine"⟩]).length :=
  dry_run_purity ⟨true, true, some 5⟩
    ⟨[⟨1, "/a.mp3", true, "quarantine"⟩], [⟨"/a.mp3", none⟩], [],
      some "db", true, "t"⟩ "db" rfl rfl rfl rfl
    (fun m hm => by injection hm with h; subst h; decide)

/-- Closed witness for C4 at a concrete state with one candidate over a cap
of zero. -/
theorem safety_cap_aborts_witness :
    ∃ report,
      startup_apply ⟨true, true, some 0⟩
          ⟨[⟨1, "/a.mp3", true, "quarantine"⟩], [⟨"/a.mp3", none⟩], [],
            some "db", true, "t"⟩ =
        Except.ok
          ({ (⟨[⟨1, "/a.mp3", true, "quarantine"⟩], [⟨"/a.mp3", none⟩], [],
              some "db", true, "t"⟩ : ApiState) with
              reports := ([] : List ApplyRunReport) ++ [report] }, report) ∧
      (∀ f ∈ report.files,
        f.status = "skipped" ∧ f.error = some "MAX_DELETE_EXCEEDED") ∧
      report.summary.delete_success_count = 0 ∧
      report.summary.delete_failure_count = 0 ∧
      report.summary.delete_skipped_count =
        (select_delete_candidates [⟨1, "/a.mp3", true, "quarantine"⟩]).length ∧
      report.files.length =
        (select_delete_candidates [⟨1, "/a.mp3", true, "quarantine"⟩]).length :=
  safety_cap_aborts ⟨true, true, some 0⟩
    ⟨[⟨1, "/a.mp3", true, "quarantine"⟩], [⟨"/a.mp3", none⟩], [],
      some "db", true, "t"⟩ "db" 0 rfl rfl rfl rfl (by decide)

/-- Closed witness for C5 at a concrete state with one removable and one
permission-locked candidate. -/
theorem partial_failure_isolation_witness :
    ∃ st' report,
      startup_apply ⟨true, false, none⟩
          ⟨[⟨1, "/a.mp3", true, "quarantine"⟩, ⟨2, "/b.mp3", true, "quarantine"⟩],
            [⟨"/a.mp3", none⟩, ⟨"/b.mp3", some "PermissionError"⟩], [],
            some "db", true, "t"⟩ = Except.ok (st', report) ∧
      report.files.length =
        (select_delete_candidates
          [⟨1, "/a.mp3", true, "quarantine"⟩,
           ⟨2, "/b.mp3", true, "quarantine"⟩]).length ∧
      (∀ f ∈ report.files,
        f.status = "deleted" ∨ (f.status = "failed" ∧ f.error ≠ none)) ∧
      (∀ f ∈ report.files, f.status = "deleted" →
        ∀ r ∈ st'.files, r.id ≠ f.file_id) ∧
      (∀ f ∈ report.files, f.status = "failed" →
        ∃ r ∈ st'.files, r.id = f.file_id) ∧
      report.summary.delete_success_count + report.summary.delete_failure_count +
          report.summary.delete_skipped_count = report.summary.total_candidates ∧
      st'.reports = ([] : List ApplyRunReport) ++ [report] :=
  partial_failure_isolation ⟨true, false, none⟩
    ⟨[⟨1, "/a.mp3", true, "quarantine"⟩, ⟨2, "/b.mp3", true, "quarantine"⟩],
      [⟨"/a.mp3", none⟩, ⟨"/b.mp3", some "PermissionError"⟩], [],
      some "db", true, "t"⟩ "db" rfl rfl rfl rfl (by decide)
    (fun m hm => nomatch hm)

/-! ## Merge engine: the overwrite-flag defect (C2) and idempotent
re-ingestion (C8) -/

/-- C2 (code bug): the upsert of `analyze_files` binds the merge-mode
placeholder to the TEXT value overwrite / no-overwrite and compares it with
the INTEGER 0; in SQLite that comparison is never true, so with the OVERWRITE
policy (`no_overwrite = False`) an existing non-null field survives instead
of being replaced by the newly observed value, and both modes behave as
FILL_MISSING_ONLY.  The specification-side merge replaces the value.  Content
hash and size are still refreshed.  The last conjunct evaluates the full
re-ingestion pipeline at the failing input: a known path whose stored artist
is Old Artist re-scanned with artist New Artist and a fresh hash under
OVERWRITE keeps Old Artist (the claim requires New Artist) while the hash is
refreshed. -/
theorem merge_overwrite_flag_bug :
    mergeField (overwriteFlag false) (some "Old Artist") (some "New Artist") =
      some "Old Artist" ∧
    mergeField (overwriteFlag true) (some "Old Artist") (some "New Artist") =
      some "Old Artist" ∧
    mergeField (overwriteFlag false) none (some "New Artist") = some "New Artist" ∧
    mergeFieldSpec MergePolicy.OVERWRITE (some "Old Artist") (some "New Artist") =
      some "New Artist" ∧
    sqliteEq (overwriteFlag false) (SQLiteValue.vint 0) = false ∧
    ((analyze_files ⟨fun s => s, fun _ => false⟩ "full" false "ANALYZED" true false
        "t2"
        (analyze_files ⟨fun s => s, fun _ => false⟩ "full" false "ANALYZED" true
          false "t1" ⟨[], [], 1, 1⟩
          [⟨"/a.mp3",
            (fun f => match f with
              | MetaField.artist => some "Old Artist"
              | _ => none), "sha1", 10, none, none⟩])
        [⟨"/a.mp3",
          (fun f => match f with
            | MetaField.artist => some "New Artist"
            | _ => none), "sha2", 10, none, none⟩]).files.map
      (fun r => (r.meta MetaField.artist, r.sha256))) =
      [(some "Old Artist", some "sha2")] := by
  refine ⟨rfl, rfl, rfl, rfl, rfl, ?_⟩
  rfl

theorem analyzeOne_known_no_action (ud : UnicodeData) (db_mode : String)
    (no_overwrite : Bool) (lifecycle_state : String) (create_actions : Bool)
    (with_fingerprint : Bool) (now : String) (db : MergeDB) (item : ScanItem)
    (h : (db.files.find? (fun r => r.original_path == item.path)).isSome) :
    (analyzeOne ud db_mode no_overwrite lifecycle_state create_actions
      with_fingerprint now db item).actions = db.actions := by
  unfold analyzeOne
  simp only [Option.isNone_iff_eq_none]
  rw [Option.isSome_iff_exists] at h
  obtain ⟨r0, hr0⟩ := h
  rw [hr0]
  simp

theorem analyzeOne_paths (ud : UnicodeData) (db_mode : String)
    (no_overwrite : Bool) (lifecycle_state : String) (create_actions : Bool)
    (with_fingerprint : Bool) (now : String) (db : MergeDB) (item : ScanItem) :
    (analyzeOne ud db_mode no_overwrite lifecycle_state create_actions
        with_fingerprint now db item).files.map (fun r => r.original_path) =
      db.files.map (fun r => r.original_path) ∨
    (analyzeOne ud db_mode no_overwrite lifecycle_state create_actions
        with_fingerprint now db item).files.map (fun r => r.original_path) =
      db.files.map (fun r => r.original_path) ++ [item.path] := by
  unfold analyzeOne
  cases hfind : db.files.find? (fun r => r.original_path == item.path) with
  | none =>
    right
    simp only [hfind, Option.isNone_none, if_true, ite_true]
    split
    · simp [normalize_file_row]
    · simp [normalize_file_row]
  | some r0 =>
    left
    simp only [hfind, Option.isNone_some, Bool.false_eq_true, if_false, ite_false]
    simp only [List.map_map]
    refine List.map_congr_left ?_
    intro r _
    by_cases hr : r.original_path = item.path
    · simp [hr, normalize_file_row]
    · simp [hr]

theorem analyzeOne_path_present (ud : UnicodeData) (db_mode : String)
    (no_overwrite : Bool) (lifecycle_state : String) (create_actions : Bool)
    (with_fingerprint : Bool) (now : String) (db : MergeDB) (item : ScanItem) :
    item.path ∈ (analyzeOne ud db_mode no_overwrite lifecycle_state
      create_actions with_fingerprint now db item).files.map
        (fun r => r.original_path) := by
  unfold analyzeOne
  cases hfind : db.files.find? (fun r => r.original_path == item.path) with
  | none =>
    simp only [hfind, Option.isNone_none, if_true, ite_true]
    split
    · simp [normalize_file_row]
    · simp [normalize_file_row]
  | some r0 =>
    simp only [hfind, Option.isNone_some, Bool.false_eq_true, if_false, ite_false]
    have hr0 := List.find?_some hfind
    have hmem := List.mem_of_find?_eq_some hfind
    refine List.mem_map.mpr ?_
    refine ⟨if r0.original_path == item.path then
      normalize_file_row ud
        { r0 with
            sha256 := match (if db_mode ≠ "db-update-only" then some item.sha else none) with
              | some s => some s
              | none => r0.sha256
            size_bytes := some item.size
            meta := fun f => mergeField (overwriteFlag no_overwrite) (r0.meta f)
              (incomingMeta db_mode with_fingerprint item f)
            last_update := now }
      else r0, ?_, ?_⟩
    · exact List.mem_map_of_mem _ hmem
    · rw [if_pos hr0]
      simpa [normalize_file_row] using (by simpa using hr0 : r0.original_path = item.path)

theorem analyze_fold_preserves_paths (ud : UnicodeData) (db_mode : String)
    (no_overwrite : Bool) (lifecycle_state : String) (create_actions : Bool)
    (with_fingerprint : Bool) (now : String) (items : List ScanItem) :
    ∀ db q, q ∈ db.files.map (fun r => r.original_path) →
      q ∈ (items.foldl (analyzeOne ud db_mode no_overwrite lifecycle_state
        create_actions with_fingerprint now) db).files.map
          (fun r => r.original_path) := by
  induction items with
  | nil => intro db q hq; exact hq
  | cons item rest ih =>
    intro db q hq
    simp only [List.foldl_cons]
    refine ih _ q ?_
    rcases analyzeOne_paths ud db_mode no_overwrite lifecycle_state
      create_actions with_fingerprint now db item with h | h
    · rw [h]; exact hq
    · rw [h]; exact List.mem_append_left _ hq

theorem analyze_fold_paths_present (ud : UnicodeData) (db_mode : String)
    (no_overwrite : Bool) (lifecycle_state : String) (create_actions : Bool)
    (with_fingerprint : Bool) (now : String) (items : List ScanItem) :
    ∀ db, ∀ item ∈ items,
      item.path ∈ (items.foldl (analyzeOne ud db_mode no_overwrite
        lifecycle_state create_actions with_fingerprint now) db).files.map
          (fun r => r.original_path) := by
  induction items with
  | nil => intro db item h; cases h
  | cons hd rest ih =>
    intro db item hmem
    simp only [List.foldl_cons]
    rcases List.mem_cons.mp hmem with rfl | hmem'
    · exact analyze_fold_preserves_paths ud db_mode no_overwrite lifecycle_state
        create_actions with_fingerprint now rest _ item.path
        (analyzeOne_path_present ud db_mode no_overwrite lifecycle_state
          create_actions with_fingerprint now db item)
    · exact ih _ item hmem'

theorem analyze_fold_known_no_actions (ud : UnicodeData) (db_mode : String)
    (no_overwrite : Bool) (lifecycle_state : String) (create_actions : Bool)
    (with_fingerprint : Bool) (now : String) (items : List ScanItem) :
    ∀ db, (∀ item ∈ items, item.path ∈ db.files.map (fun r => r.original_path)) →
      (items.foldl (analyzeOne ud db_mode no_overwrite lifecycle_state
        create_actions with_fingerprint now) db).actions = db.actions := by
  induction items with
  | nil => intro db _; rfl
  | cons item rest ih =>
    intro db hknown
    simp only [List.foldl_cons]
    have hpath := hknown item (List.mem_cons_self _ _)
    have hfind : (db.files.find? (fun r => r.original_path == item.path)).isSome := by
      rw [List.find?_isSome]
      obtain ⟨r, hr, hrp⟩ := List.mem_map.mp hpath
      exact ⟨r, hr, by simp [hrp]⟩
    rw [ih _ ?_]
    · exact analyzeOne_known_no_action ud db_mode no_overwrite lifecycle_state
        create_actions with_fingerprint now db item hfind
    · intro item' hitem'
      rcases analyzeOne_paths ud db_mode no_overwrite lifecycle_state
        create_actions with_fingerprint now db item with h | h
      · rw [h]; exact hknown item' (List.mem_cons_of_mem _ hitem')
      · rw [h]
        exact List.mem_append_left _ (hknown item' (List.mem_cons_of_mem _ hitem'))

theorem squeeze_mem {c : Nat} : ∀ {l : List Nat}, c ∈ squeezeSpaces l → c ∈ l := by
  intro l
  induction l with
  | nil => intro h; exact h
  | cons a rest ih =>
    intro h
    simp only [squeezeSpaces] at h
    cases hsq : squeezeSpaces rest with
    | nil =>
      rw [hsq] at h
      simp only [List.mem_singleton] at h
      exact h ▸ List.mem_cons_self _ _
    | cons b tl =>
      rw [hsq] at h
      dsimp only at h
      by_cases hab : a = 32 ∧ b = 32
      · rw [if_pos hab] at h
        exact List.mem_cons_of_mem _ (ih (hsq ▸ h))
      · rw [if_neg hab] at h
        rcases List.mem_cons.mp h with rfl | h'
        · exact List.mem_cons_self _ _
        · exact List.mem_cons_of_mem _ (ih (hsq ▸ h'))

theorem squeeze_chain : ∀ l : List Nat, List.Chain' noDouble (squeezeSpaces l) := by
  intro l
  induction l with
  | nil => exact List.chain'_nil
  | cons a rest ih =>
    simp only [squeezeSpaces]
    cases hsq : squeezeSpaces rest with
    | nil => simp
    | cons b tl =>
      dsimp only
      rw [hsq] at ih
      by_cases hab : a = 32 ∧ b = 32
      · rw [if_pos hab]; exact ih
      · rw [if_neg hab]
        exact List.chain'_cons.mpr ⟨hab, ih⟩

theorem squeeze_id : ∀ l : List Nat, List.Chain' noDouble l → squeezeSpaces l = l := by
  intro l
  induction l with
  | nil => intro _; rfl
  | cons a rest ih =>
    intro h
    simp only [squeezeSpaces]
    rw [ih (List.Chain'.tail h)]
    cases rest with
    | nil => rfl
    | cons b tl =>
      dsimp only
      have hn : noDouble a b := (List.chain'_cons.mp h).1
      rw [if_neg hn]

theorem dropWhile32_eq_self (l : List Nat) (h : l.head? ≠ some 32) :
    l.dropWhile (fun c => c == 32) = l := by
  cases l with
  | nil => rfl
  | cons a t =>
    have ha : a ≠ 32 := by
      intro hc
      exact h (by rw [hc]; rfl)
    rw [List.dropWhile_cons]
    simp [ha]

theorem head?_dropWhile32 (l : List Nat) (a : Nat)
    (h : (l.dropWhile (fun c => c == 32)).head? = some a) : a ≠ 32 := by
  induction l with
  | nil => cases h
  | cons b t ih =>
    rw [List.dropWhile_cons] at h
    by_cases hb : b = 32
    · rw [if_pos (by simp [hb])] at h
      exact ih h
    · rw [if_neg (by simp [hb])] at h
      simp only [List.head?_cons, Option.some.injEq] at h
      exact h ▸ hb

theorem strip_id (l : List Nat) (h1 : l.head? ≠ some 32)
    (h2 : l.getLast? ≠ some 32) : stripSpaces l = l := by
  unfold stripSpaces
  rw [dropWhile32_eq_self l h1]
  rw [dropWhile32_eq_self l.reverse (by rw [List.head?_reverse]; exact h2)]
  exact List.reverse_reverse l

theorem strip_mem {c : Nat} (l : List Nat) (h : c ∈ stripSpaces l) : c ∈ l := by
  unfold stripSpaces at h
  rw [List.mem_reverse] at h
  have h' := (List.dropWhile_suffix (l := (l.dropWhile (fun c => c == 32)).reverse)
    (fun c => c == 32)).sublist.subset h
  rw [List.mem_reverse] at h'
  exact (List.dropWhile_suffix (fun c => c == 32)).sublist.subset h'

theorem chain_noDouble_suffix {l l' : List Nat} (h : List.Chain' noDouble l)
    (hs : l' <:+ l) : List.Chain' noDouble l' :=
  List.Chain'.suffix h hs

theorem chain_noDouble_reverse {l : List Nat} (h : List.Chain' noDouble l) :
    List.Chain' noDouble l.reverse := by
  rw [List.chain'_reverse]
  refine h.imp ?_
  intro a b hab
  intro hc
  exact hab ⟨hc.2, hc.1⟩

theorem strip_chain (l : List Nat) (h : List.Chain' noDouble l) :
    List.Chain' noDouble (stripSpaces l) := by
  unfold stripSpaces
  refine chain_noDouble_reverse ?_
  refine chain_noDouble_suffix ?_ (List.dropWhile_suffix _)
  refine chain_noDouble_reverse ?_
  exact chain_noDouble_suffix h (List.dropWhile_suffix _)

theorem getLast?_of_suffix {l l' : List Nat} (hs : l' <:+ l) (hne : l' ≠ []) :
    l'.getLast? = l.getLast? := by
  obtain ⟨u, rfl⟩ := hs
  rw [List.getLast?_append_of_ne_nil u hne]

theorem strip_bounds (l : List Nat) :
    (stripSpaces l).head? ≠ some 32 ∧ (stripSpaces l).getLast? ≠ some 32 := by
  unfold stripSpaces
  constructor
  · intro h
    rw [List.head?_reverse] at h
    have hne : (l.dropWhile (fun c => c == 32)).reverse.dropWhile
        (fun c => c == 32) ≠ [] := by
      intro hnil
      rw [hnil] at h
      cases h
    rw [getLast?_of_suffix (List.dropWhile_suffix _) hne] at h
    rw [List.getLast?_reverse] at h
    exact head?_dropWhile32 l 32 h rfl
  · intro h
    rw [List.getLast?_reverse] at h
    exact head?_dropWhile32 _ 32 h rfl

theorem wsNormalize_mem {c : Nat} (l : List Nat) (h : c ∈ wsNormalize l) :
    c = 32 ∨ (c ∈ l ∧ isWS c = false) := by
  unfold wsNormalize at h
  have h1 := squeeze_mem (strip_mem _ h)
  obtain ⟨d, hd, hdc⟩ := List.mem_map.mp h1
  by_cases hws : isWS d
  · rw [if_pos hws] at hdc
    exact Or.inl hdc.symm
  · rw [if_neg hws] at hdc
    right
    subst hdc
    exact ⟨hd, by simpa using hws⟩

theorem wsNormalize_ws_is_space (l : List Nat) :
    ∀ c ∈ wsNormalize l, isWS c = true → c = 32 := by
  intro c hc hws
  rcases wsNormalize_mem l hc with h | ⟨_, hno⟩
  · exact h
  · rw [hws] at hno; cases hno

theorem wsNormalize_chain (l : List Nat) :
    List.Chain' noDouble (wsNormalize l) :=
  strip_chain _ (squeeze_chain _)

theorem wsNormalize_bounds (l : List Nat) :
    (wsNormalize l).head? ≠ some 32 ∧ (wsNormalize l).getLast? ≠ some 32 :=
  strip_bounds _

theorem wsNormalize_id (l : List Nat)
    (hws : ∀ c ∈ l, isWS c = true → c = 32)
    (hch : List.Chain' noDouble l)
    (hh : l.head? ≠ some 32) (hl : l.getLast? ≠ some 32) :
    wsNormalize l = l := by
  unfold wsNormalize
  have hmap : l.map (fun c => if isWS c then 32 else c) = l.map id := by
    refine List.map_congr_left ?_
    intro c hc
    by_cases h : isWS c
    · rw [if_pos h]
      exact (hws c hc (by simpa using h)).symm
    · rw [if_neg h]
      rfl
  rw [hmap, List.map_id, squeeze_id l hch, strip_id l hh hl]

theorem splitOnSpace_ne_nil : ∀ l : List Nat, splitOnSpace l ≠ [] := by
  intro l
  cases l with
  | nil => simp [splitOnSpace]
  | cons c rest =>
    simp only [splitOnSpace]
    cases hsr : splitOnSpace rest with
    | nil => simp
    | cons x xs =>
      dsimp only
      by_cases hc : c = 32
      · rw [if_pos hc]; simp
      · rw [if_neg hc]; simp

theorem splitOnSpace_no32 : ∀ l : List Nat, ∀ t ∈ splitOnSpace l, ∀ c ∈ t, c ≠ 32 := by
  intro l
  induction l with
  | nil =>
    intro t ht c hc
    simp only [splitOnSpace, List.mem_singleton] at ht
    subst ht
    cases hc
  | cons c0 rest ih =>
    intro t ht c hc
    simp only [splitOnSpace] at ht
    cases hsr : splitOnSpace rest with
    | nil => exact absurd hsr (splitOnSpace_ne_nil rest)
    | cons x xs =>
      rw [hsr] at ht
      dsimp only at ht
      by_cases hc0 : c0 = 32
      · rw [if_pos hc0] at ht
        rcases List.mem_cons.mp ht with rfl | ht'
        · cases hc
        · exact ih t (hsr ▸ ht') c hc
      · rw [if_neg hc0] at ht
        rcases List.mem_cons.mp ht with rfl | ht'
        · rcases List.mem_cons.mp hc with rfl | hc'
          · exact hc0
          · exact ih x (hsr ▸ List.mem_cons_self x xs) c hc'
        · exact ih t (hsr ▸ List.mem_cons_of_mem x ht') c hc

theorem splitOnSpace_chars : ∀ l : List Nat, ∀ t ∈ splitOnSpace l, ∀ c ∈ t, c ∈ l := by
  intro l
  induction l with
  | nil =>
    intro t ht c hc
    simp only [splitOnSpace, List.mem_singleton] at ht
    subst ht
    cases hc
  | cons c0 rest ih =>
    intro t ht c hc
    simp only [splitOnSpace] at ht
    cases hsr : splitOnSpace rest with
    | nil => exact absurd hsr (splitOnSpace_ne_nil rest)
    | cons x xs =>
      rw [hsr] at ht
      dsimp only at ht
      by_cases hc0 : c0 = 32
      · rw [if_pos hc0] at ht
        rcases List.mem_cons.mp ht with rfl | ht'
        · cases hc
        · exact List.mem_cons_of_mem _ (ih t (hsr ▸ ht') c hc)
      · rw [if_neg hc0] at ht
        rcases List.mem_cons.mp ht with rfl | ht'
        · rcases List.mem_cons.mp hc with rfl | hc'
          · exact List.mem_cons_self _ _
          · exact List.mem_cons_of_mem _
              (ih x (hsr ▸ List.mem_cons_self x xs) c hc')
        · exact List.mem_cons_of_mem _
            (ih t (hsr ▸ List.mem_cons_of_mem x ht') c hc)

theorem splitOnSpace_append (w : List Nat) (hw : ∀ c ∈ w, c ≠ 32) :
    ∀ l x xs, splitOnSpace l = x :: xs →
      splitOnSpace (w ++ l) = (w ++ x) :: xs := by
  induction w with
  | nil => intro l x xs h; simpa using h
  | cons a w' ih =>
    intro l x xs h
    have ha : a ≠ 32 := hw a (List.mem_cons_self _ _)
    have hw' : ∀ c ∈ w', c ≠ 32 := fun c hc => hw c (List.mem_cons_of_mem _ hc)
    have hrec := ih hw' l x xs h
    simp only [List.cons_append, splitOnSpace, List.append_eq]
    rw [hrec]
    simp [ha]

theorem splitOnSpace_self (w : List Nat) (hw : ∀ c ∈ w, c ≠ 32) :
    splitOnSpace w = [w] := by
  have h := splitOnSpace_append w hw [] [] [] rfl
  simpa using h

theorem splitOnSpace_cons32 (l : List Nat) :
    splitOnSpace (32 :: l) = [] :: splitOnSpace l := by
  simp only [splitOnSpace]
  cases h : splitOnSpace l with
  | nil => exact absurd h (splitOnSpace_ne_nil l)
  | cons y ys => simp

theorem split_join (ws : List (List Nat)) (hne : ws ≠ [])
    (hw : ∀ w ∈ ws, ∀ c ∈ w, c ≠ 32) :
    splitOnSpace (joinSpace ws) = ws := by
  induction ws with
  | nil => exact absurd rfl hne
  | cons w rest ih =>
    cases rest with
    | nil =>
      simp only [joinSpace]
      exact splitOnSpace_self w (hw w (List.mem_cons_self _ _))
    | cons w2 rest2 =>
      have hj := ih (by simp)
        (fun w' h' => hw w' (List.mem_cons_of_mem _ h'))
      have hsplit32 : splitOnSpace (32 :: joinSpace (w2 :: rest2)) =
          [] :: w2 :: rest2 := by
        rw [splitOnSpace_cons32, hj]
      have := splitOnSpace_append w (hw w (List.mem_cons_self _ _))
        (32 :: joinSpace (w2 :: rest2)) [] (w2 :: rest2) hsplit32
      simpa [joinSpace] using this

theorem chain_of_no32 (w : List Nat) (hw : ∀ c ∈ w, c ≠ 32) :
    List.Chain' noDouble w := by
  induction w with
  | nil => exact List.chain'_nil
  | cons a t ih =>
    cases t with
    | nil => simp
    | cons b t2 =>
      refine List.chain'_cons.mpr ⟨?_, ih (fun c hc => hw c (List.mem_cons_of_mem _ hc))⟩
      intro hcontra
      exact hw a (List.mem_cons_self _ _) hcontra.1

theorem joinSpace_ne_nil (w : List Nat) (rest : List (List Nat)) (hw : w ≠ []) :
    joinSpace (w :: rest) ≠ [] := by
  cases rest with
  | nil => simpa [joinSpace] using hw
  | cons w2 rest2 =>
    simp only [joinSpace]
    intro h
    rcases List.append_eq_nil.mp h with ⟨_, h2⟩
    cases h2

theorem joinSpace_props (ws : List (List Nat))
    (h : ∀ w ∈ ws, w ≠ [] ∧ ∀ c ∈ w, c ≠ 32) :
    (∀ c ∈ joinSpace ws, c = 32 ∨ ∃ w ∈ ws, c ∈ w) ∧
    List.Chain' noDouble (joinSpace ws) ∧
    (joinSpace ws).head? ≠ some 32 ∧ (joinSpace ws).getLast? ≠ some 32 := by
  induction ws with
  | nil =>
    refine ⟨?_, ?_, ?_, ?_⟩ <;> simp [joinSpace]
  | cons w rest ih =>
    have hwne := (h w (List.mem_cons_self _ _)).1
    have hw32 := (h w (List.mem_cons_self _ _)).2
    cases rest with
    | nil =>
      simp only [joinSpace]
      refine ⟨?_, chain_of_no32 w hw32, ?_, ?_⟩
      · intro c hc
        exact Or.inr ⟨w, List.mem_cons_self _ _, hc⟩
      · intro hcontra
        cases hh : w.head? with
        | none => rw [hh] at hcontra; cases hcontra
        | some a =>
          rw [hh] at hcontra
          have := List.mem_of_mem_head? (hh ▸ rfl : w.head? = some a)
          simp only [Option.some.injEq] at hcontra
          exact hw32 a this (hcontra ▸ rfl)
      · intro hcontra
        cases hh : w.getLast? with
        | none => rw [hh] at hcontra; cases hcontra
        | some a =>
          rw [hh] at hcontra
          have : a ∈ w := List.mem_of_mem_getLast? (by rw [hh]; rfl)
          simp only [Option.some.injEq] at hcontra
          exact hw32 a this (hcontra ▸ rfl)
    | cons w2 rest2 =>
      have ihp := ih (fun w' h' => h w' (List.mem_cons_of_mem _ h'))
      have hjne : joinSpace (w2 :: rest2) ≠ [] :=
        joinSpace_ne_nil w2 rest2 (h w2 (by simp)).1
      simp only [joinSpace]
      refine ⟨?_, ?_, ?_, ?_⟩
      · intro c hc
        rcases List.mem_append.mp hc with hcw | hcj
        · exact Or.inr ⟨w, List.mem_cons_self _ _, hcw⟩
        · rcases List.mem_cons.mp hcj with rfl | hcj'
          · exact Or.inl rfl
          · rcases ihp.1 c hcj' with h32 | ⟨w', hw', hcw'⟩
            · exact Or.inl h32
            · exact Or.inr ⟨w', List.mem_cons_of_mem _ hw', hcw'⟩
      · refine List.Chain'.append (chain_of_no32 w hw32) ?_ ?_
        · refine List.chain'_cons'.mpr ⟨?_, ihp.2.1⟩
          intro y hy
          intro hcontra
          exact ihp.2.2.1 (by rw [hy, hcontra.2])
        · intro x hx y hy
          simp only [List.head?_cons, Option.mem_def, Option.some.injEq] at hy
          intro hcontra
          have : x ∈ w := List.mem_of_mem_getLast? hx
          exact hw32 x this hcontra.1
      · intro hcontra
        cases w with
        | nil => exact hwne rfl
        | cons a t =>
          simp only [List.cons_append, List.head?_cons, Option.some.injEq] at hcontra
          exact hw32 a (List.mem_cons_self _ _) hcontra
      · rw [List.getLast?_append_of_ne_nil w (by simp)]
        cases hj : joinSpace (w2 :: rest2) with
        | nil => exact absurd hj hjne
        | cons j0 jt =>
          rw [List.getLast?_cons_cons]
          rw [hj] at ihp
          exact ihp.2.2.2

theorem split_tokens_ne_nil : ∀ n (l : List Nat), l.length ≤ n → l ≠ [] →
    List.Chain' noDouble l → l.getLast? ≠ some 32 → l.head? ≠ some 32 →
    ∀ t ∈ splitOnSpace l, t ≠ [] := by
  intro n
  induction n with
  | zero =>
    intro l hlen hne
    cases l with
    | nil => exact absurd rfl hne
    | cons a t => simp at hlen
  | succ n ih =>
    intro l hlen hne hch hlast hhead t ht
    cases l with
    | nil => exact absurd rfl hne
    | cons c0 rest =>
      have hc0 : c0 ≠ 32 := by
        intro hc
        exact hhead (by rw [hc]; rfl)
      cases hsr : splitOnSpace rest with
      | nil => exact absurd hsr (splitOnSpace_ne_nil rest)
      | cons x xs =>
        have hform : splitOnSpace (c0 :: rest) = (c0 :: x) :: xs := by
          simp only [splitOnSpace, hsr]
          simp [hc0]
        rw [hform] at ht
        rcases List.mem_cons.mp ht with rfl | ht'
        · simp
        · cases rest with
          | nil =>
            simp only [splitOnSpace, List.cons.injEq] at hsr
            rw [← hsr.2] at ht'
            cases ht'
          | cons c1 rest2 =>
            by_cases hc1 : c1 = 32
            · subst hc1
              cases rest2 with
              | nil =>
                exfalso
                apply hlast
                rfl
              | cons c2 rest3 =>
                have hc2 : c2 ≠ 32 := by
                  have h1 := (List.chain'_cons.mp hch).2
                  have h2 := (List.chain'_cons.mp h1).1
                  intro hc
                  exact h2 ⟨rfl, hc⟩
                have hxs : xs = splitOnSpace (c2 :: rest3) := by
                  rw [splitOnSpace_cons32] at hsr
                  simp only [List.cons.injEq] at hsr
                  exact hsr.2.symm
                refine ih (c2 :: rest3) ?_ (by simp) ?_ ?_ ?_ t (hxs ▸ ht')
                · simp only [List.length_cons] at hlen ⊢
                  omega
                · exact ((List.chain'_cons.mp hch).2).tail
                · have : (c0 :: 32 :: c2 :: rest3).getLast? =
                      (c2 :: rest3).getLast? := by
                    rw [List.getLast?_cons_cons, List.getLast?_cons_cons]
                  rw [← this]
                  exact hlast
                · intro hcontra
                  simp only [List.head?_cons, Option.some.injEq] at hcontra
                  exact hc2 hcontra
            · refine ih (c1 :: rest2) ?_ (by simp) (List.Chain'.tail hch) ?_ ?_ t ?_
              · simp only [List.length_cons] at hlen ⊢
                omega
              · rw [← List.getLast?_cons_cons (a := c0)]
                exact hlast
              · intro hcontra
                simp only [List.head?_cons, Option.some.injEq] at hcontra
                exact hc1 hcontra
              · rw [hsr]
                exact List.mem_cons_of_mem x ht'

theorem toLowerCp_lt_128 (c : Nat) (h : c < 128) : toLowerCp c < 128 := by
  unfold toLowerCp
  split <;> omega

theorem toLowerCp_idem (c : Nat) : toLowerCp (toLowerCp c) = toLowerCp c := by
  unfold toLowerCp
  by_cases h : 65 ≤ c ∧ c ≤ 90
  · rw [if_pos h, if_neg (by omega)]
  · rw [if_neg h, if_neg h]

theorem stageUnicode_chars (ud : UnicodeData) (v : List Nat) :
    ∀ c ∈ stageUnicode ud v, c < 128 := by
  intro c hc
  unfold stageUnicode at hc
  have := List.of_mem_filter hc
  simpa [isAsciiCp] using this

theorem stageLower_chars (l : List Nat) (h : ∀ c ∈ l, c < 128) :
    ∀ c ∈ stageLower l, c < 128 ∧ toLowerCp c = c := by
  intro c hc
  simp only [stageLower, List.mem_map] at hc
  obtain ⟨f, hf, rfl⟩ := hc
  exact ⟨toLowerCp_lt_128 f (h f hf), toLowerCp_idem f⟩

theorem punct_sep_chars (l : List Nat)
    (h : ∀ c ∈ l, c < 128 ∧ toLowerCp c = c) :
    ∀ c ∈ stageSep (stagePunct l),
      c < 128 ∧ toLowerCp c = c ∧ punctChars.contains c = false ∧
        sepChars.contains c = false := by
  intro c hc
  simp only [stageSep, List.mem_map] at hc
  obtain ⟨d, hd, rfl⟩ := hc
  simp only [stagePunct, List.mem_map] at hd
  obtain ⟨e, he, rfl⟩ := hd
  have he' := h e he
  have hd' : (if punctChars.contains e then 32 else e) < 128 ∧
      toLowerCp (if punctChars.contains e then 32 else e) =
        (if punctChars.contains e then 32 else e) ∧
      punctChars.contains (if punctChars.contains e then 32 else e) = false := by
    by_cases hp : punctChars.contains e
    · rw [if_pos hp]
      refine ⟨by omega, by decide, by decide⟩
    · rw [if_neg hp]
      exact ⟨he'.1, he'.2, by simpa using hp⟩
  by_cases hs : sepChars.contains (if punctChars.contains e then 32 else e)
  · rw [if_pos hs]
    refine ⟨by omega, by decide, by decide, by decide⟩
  · rw [if_neg hs]
    exact ⟨hd'.1, hd'.2.1, hd'.2.2, by simpa using hs⟩

theorem stageUnicode_id (ud : UnicodeData)
    (hn : ∀ s, (∀ c ∈ s, c < 128) → ud.nfkd s = s)
    (hcomb : ∀ c, c < 128 → ud.combining c = false)
    (l : List Nat) (hl : ∀ c ∈ l, c < 128) : stageUnicode ud l = l := by
  have h1 : ud.nfkd l = l := hn l hl
  have h2 : l.filter (fun c => !(ud.combining c)) = l :=
    List.filter_eq_self.mpr (fun c hc => by rw [hcomb c (hl c hc)]; rfl)
  have h3 : l.map (fun c => if c = 240 then 100 else c) = l := by
    have h : l.map (fun c => if c = 240 then 100 else c) = l.map id := by
      refine List.map_congr_left ?_
      intro c hc
      have := hl c hc
      rw [if_neg (by omega)]
      rfl
    rw [h, List.map_id]
  have h4 : l.map (fun c => if c = 208 then 100 else c) = l := by
    have h : l.map (fun c => if c = 208 then 100 else c) = l.map id := by
      refine List.map_congr_left ?_
      intro c hc
      have := hl c hc
      rw [if_neg (by omega)]
      rfl
    rw [h, List.map_id]
  have h5 : l.filter isAsciiCp = l :=
    List.filter_eq_self.mpr (fun c hc => by simpa [isAsciiCp] using hl c hc)
  unfold stageUnicode
  rw [h1, h2, h3, h4, h5]

theorem stageLower_id (l : List Nat) (h : ∀ c ∈ l, toLowerCp c = c) :
    stageLower l = l := by
  unfold stageLower
  have : l.map toLowerCp = l.map id := List.map_congr_left (fun c hc => h c hc)
  rw [this, List.map_id]

theorem stagePunct_id (l : List Nat)
    (h : ∀ c ∈ l, punctChars.contains c = false) : stagePunct l = l := by
  unfold stagePunct
  have : l.map (fun c => if punctChars.contains c then 32 else c) = l.map id := by
    refine List.map_congr_left ?_
    intro c hc
    rw [h c hc]
    rfl
  rw [this, List.map_id]

theorem stageSep_id (l : List Nat)
    (h : ∀ c ∈ l, sepChars.contains c = false) : stageSep l = l := by
  unfold stageSep
  have : l.map (fun c => if sepChars.contains c then 32 else c) = l.map id := by
    refine List.map_congr_left ?_
    intro c hc
    rw [h c hc]
    rfl
  rw [this, List.map_id]

theorem wsNormalize_join_id (ws : List (List Nat))
    (h : ∀ w ∈ ws, w ≠ [] ∧ ∀ c ∈ w, isWS c = false) :
    wsNormalize (joinSpace ws) = joinSpace ws := by
  have h' : ∀ w ∈ ws, w ≠ [] ∧ ∀ c ∈ w, c ≠ 32 := by
    intro w hw
    refine ⟨(h w hw).1, ?_⟩
    intro c hc he
    have := (h w hw).2 c hc
    rw [he] at this
    exact absurd this (by decide)
  have hp := joinSpace_props ws h'
  refine wsNormalize_id _ ?_ hp.2.1 hp.2.2.1 hp.2.2.2
  intro c hc hws
  rcases hp.1 c hc with h32 | ⟨w, hw, hcw⟩
  · exact h32
  · rw [(h w hw).2 c hcw] at hws
    cases hws

theorem normalize_text_some (ud : UnicodeData) (v : List Nat)
    (hv : v.isEmpty = false) :
    normalize_text ud (some v) =
      (if (wsNormalize (stageSep (stagePunct (stageLower
            (stageUnicode ud v))))).isEmpty then []
       else
         wsNormalize (joinSpace
           ((splitOnSpace (wsNormalize (stageSep (stagePunct (stageLower
              (stageUnicode ud v)))))).filter
             (fun t => !(digitsOnly t) &&
               !((splitOnSpace (wsNormalize (stageSep (stagePunct (stageLower
                  (stageUnicode ud v)))))).any digitsOnly &&
                 NOISE_TOKENS.contains t))))) := by
  simp only [normalize_text, hv, Bool.false_eq_true, if_false, ite_false]

/-- C10: text normalization is idempotent. The two facts assumed about the
external `unicodedata` collaborator are the documented Unicode properties
that an ASCII string is fixed by NFKD normalization and that no ASCII
character is a combining mark; under them, normalizing twice equals
normalizing once (determinism holds because the embedding is a pure
function of its arguments). -/
theorem normalize_text_idempotent (ud : UnicodeData)
    (hn : ∀ s, (∀ c ∈ s, c < 128) → ud.nfkd s = s)
    (hcomb : ∀ c, c < 128 → ud.combining c = false)
    (value : Option (List Nat)) :
    normalize_text ud (some (normalize_text ud value)) = normalize_text ud value := by
  match value with
  | none => rfl
  | some v =>
    by_cases hv : v.isEmpty
    · have h1 : normalize_text ud (some v) = [] := by
        simp [normalize_text, hv]
      rw [h1]
      rfl
    · rw [Bool.not_eq_true] at hv
      rw [normalize_text_some ud v hv]
      by_cases ht1 : (wsNormalize (stageSep (stagePunct (stageLower
          (stageUnicode ud v))))).isEmpty
      · rw [if_pos ht1]
        rfl
      · rw [if_neg ht1]
        rw [Bool.not_eq_true, List.isEmpty_eq_false_iff_exists_mem] at ht1
        have htne : wsNormalize (stageSep (stagePunct (stageLower
            (stageUnicode ud v)))) ≠ [] := by
          obtain ⟨x, hx⟩ := ht1
          exact List.ne_nil_of_mem hx
        have hs3chars := punct_sep_chars (stageLower (stageUnicode ud v))
          (stageLower_chars _ (stageUnicode_chars ud v))
        have hwords : ∀ w ∈ (splitOnSpace (wsNormalize (stageSep (stagePunct
            (stageLower (stageUnicode ud v)))))).filter
              (fun t => !(digitsOnly t) &&
                !((splitOnSpace (wsNormalize (stageSep (stagePunct (stageLower
                   (stageUnicode ud v)))))).any digitsOnly &&
                  NOISE_TOKENS.contains t)),
            w ≠ [] ∧ ∀ c ∈ w, isWS c = false ∧ c < 128 ∧ toLowerCp c = c ∧
              punctChars.contains c = false ∧ sepChars.contains c = false := by
          intro w hw
          have hwt := List.mem_of_mem_filter hw
          constructor
          · exact split_tokens_ne_nil
              (wsNormalize (stageSep (stagePunct (stageLower
                (stageUnicode ud v))))).length _ le_rfl htne
              (wsNormalize_chain _) (wsNormalize_bounds _).2
              (wsNormalize_bounds _).1 w hwt
          · intro c hc
            have hc32 := splitOnSpace_no32 _ w hwt c hc
            have hctext := splitOnSpace_chars _ w hwt c hc
            rcases wsNormalize_mem _ hctext with h32 | ⟨hcs3, hws⟩
            · exact absurd h32 hc32
            · have := hs3chars c hcs3
              exact ⟨hws, this.1, this.2.1, this.2.2.1, this.2.2.2⟩
        have hdig : ∀ w ∈ (splitOnSpace (wsNormalize (stageSep (stagePunct
            (stageLower (stageUnicode ud v)))))).filter
              (fun t => !(digitsOnly t) &&
                !((splitOnSpace (wsNormalize (stageSep (stagePunct (stageLower
                   (stageUnicode ud v)))))).any digitsOnly &&
                  NOISE_TOKENS.contains t)),
            digitsOnly w = false := by
          intro w hw
          have := List.of_mem_filter hw
          simp only [Bool.and_eq_true, Bool.not_eq_true'] at this
          exact this.1
        generalize hW : (splitOnSpace (wsNormalize (stageSep (stagePunct
            (stageLower (stageUnicode ud v)))))).filter
              (fun t => !(digitsOnly t) &&
                !((splitOnSpace (wsNormalize (stageSep (stagePunct (stageLower
                   (stageUnicode ud v)))))).any digitsOnly &&
                  NOISE_TOKENS.contains t)) = words at hwords hdig
        clear hW ht1 htne hs3chars hv
        by_cases hwordsnil : words = []
        · rw [hwordsnil]
          rfl
        · have hwne : words ≠ [] := hwordsnil
          have hjoin_id : wsNormalize (joinSpace words) = joinSpace words :=
            wsNormalize_join_id words
              (fun w hw => ⟨(hwords w hw).1, fun c hc => ((hwords w hw).2 c hc).1⟩)
          rw [hjoin_id]
          have hone : joinSpace words ≠ [] := by
            cases words with
            | nil => exact absurd rfl hwne
            | cons w0 wrest =>
              exact joinSpace_ne_nil w0 wrest (hwords w0 (by simp)).1
          have honeEmpty : (joinSpace words).isEmpty = false := by
            simpa [List.isEmpty_iff] using hone
          rw [normalize_text_some ud (joinSpace words) honeEmpty]
          have hjchars : ∀ c ∈ joinSpace words,
              c < 128 ∧ toLowerCp c = c ∧ punctChars.contains c = false ∧
                sepChars.contains c = false := by
            intro c hc
            rcases (joinSpace_props words
                (fun w hw => ⟨(hwords w hw).1, fun c' hc' => by
                  intro he
                  have := ((hwords w hw).2 c' hc').1
                  rw [he] at this
                  exact absurd this (by decide)⟩)).1 c hc with h32 | ⟨w, hw, hcw⟩
            · subst h32
              refine ⟨by omega, by decide, by decide, by decide⟩
            · have := (hwords w hw).2 c hcw
              exact ⟨this.2.1, this.2.2.1, this.2.2.2.1, this.2.2.2.2⟩
          have hstage : stageSep (stagePunct (stageLower
              (stageUnicode ud (joinSpace words)))) = joinSpace words := by
            rw [stageUnicode_id ud hn hcomb _ (fun c hc => (hjchars c hc).1)]
            rw [stageLower_id _ (fun c hc => (hjchars c hc).2.1)]
            rw [stagePunct_id _ (fun c hc => (hjchars c hc).2.2.1)]
            exact stageSep_id _ (fun c hc => (hjchars c hc).2.2.2)
          rw [hstage, hjoin_id]
          rw [if_neg (by simpa [List.isEmpty_iff] using hone)]
          have hsplit : splitOnSpace (joinSpace words) = words := by
            refine split_join words hwne ?_
            intro w hw c hc he
            have := ((hwords w hw).2 c hc).1
            rw [he] at this
            exact absurd this (by decide)
          rw [hsplit]
          have hany : words.any digitsOnly = false := by
            rw [List.any_eq_false]
            intro w hw
            rw [hdig w hw]
            exact Bool.false_ne_true
          rw [hany]
          have hfilter : words.filter
              (fun t => !(digitsOnly t) && !(false && NOISE_TOKENS.contains t)) =
                words := by
            refine List.filter_eq_self.mpr ?_
            intro w hw
            rw [hdig w hw]
            rfl
          rw [hfilter, hjoin_id]

/-- Closed witness for C10: idempotence at a concrete title and a concrete
`unicodedata` model (the identity NFKD and no combining marks, which satisfy
both hypotheses outright). -/
theorem normalize_text_idempotent_witness :
    normalize_text ⟨fun s => s, fun _ => false⟩
        (some (normalize_text ⟨fun s => s, fun _ => false⟩
          (some (strCodes "Paranoid (2012 Remastered)")))) =
      normalize_text ⟨fun s => s, fun _ => false⟩
        (some (strCodes "Paranoid (2012 Remastered)")) :=
  normalize_text_idempotent ⟨fun s => s, fun _ => false⟩
    (fun _ _ => rfl) (fun _ _ => rfl)
    (some (strCodes "Paranoid (2012 Remastered)"))

/-- C8: full-mode ingestion is idempotent with respect to staged actions.
Scanning the same source tree a second time in full mode creates zero
additional rows in the actions ledger (the ledger after the second pass
equals the ledger after the first), and more generally one scan step of an
already-known path never touches the ledger. -/
theorem idempotent_reingestion (ud : UnicodeData) (no_overwrite : Bool)
    (lifecycle_state : String) (create_actions : Bool) (with_fingerprint : Bool)
    (now1 now2 : String) (db : MergeDB) (items : List ScanItem) :
    (analyze_files ud "full" no_overwrite lifecycle_state create_actions
        with_fingerprint now2
        (analyze_files ud "full" no_overwrite lifecycle_state create_actions
          with_fingerprint now1 db items) items).actions =
      (analyze_files ud "full" no_overwrite lifecycle_state create_actions
        with_fingerprint now1 db items).actions := by
  have hfull : ("full" : String) = "schema-only" ↔ False := by simp
  simp only [analyze_files, hfull, if_false, ite_false]
  refine analyze_fold_known_no_actions ud "full" no_overwrite lifecycle_state
    create_actions with_fingerprint now2 items _ ?_
  intro item hitem
  exact analyze_fold_paths_present ud "full" no_overwrite lifecycle_state
    create_actions with_fingerprint now1 items db item hitem

/-! ## Cluster service: the union-find root function

Under `WF` (parents never exceed their children, the invariant the
smaller-root-wins discipline maintains) the fuel-driven chase computes the
genuine root: every step strictly decreases, so fuel `x` suffices from `x`. -/

theorem chase_fuel (p : Nat → Nat) (hp : WF p) :
    ∀ x f g, x ≤ f → x ≤ g → chase p f x = chase p g x := by
  intro x
  induction x using Nat.strong_induction_on with
  | _ x ih =>
    intro f g hf hg
    match f, g with
    | 0, 0 => rfl
    | 0, g + 1 =>
      have hx : x = 0 := by omega
      subst hx
      have h0 : p 0 = 0 := Nat.le_zero.mp (hp 0)
      simp [chase, h0]
    | f + 1, 0 =>
      have hx : x = 0 := by omega
      subst hx
      have h0 : p 0 = 0 := Nat.le_zero.mp (hp 0)
      simp [chase, h0]
    | f + 1, g + 1 =>
      simp only [chase]
      by_cases hx : p x = x
      · rw [if_pos hx, if_pos hx]
      · rw [if_neg hx, if_neg hx]
        have hlt : p x < x := lt_of_le_of_ne (hp x) hx
        exact ih (p x) hlt f g (by omega) (by omega)

theorem rootOf_eq_chase (p : Nat → Nat) (hp : WF p) (x f : Nat) (hf : x ≤ f) :
    rootOf p x = chase p f x :=
  chase_fuel p hp x x f le_rfl hf

theorem rootOf_fix (p : Nat → Nat) (hp : WF p) (x : Nat) (h : p x = x) :
    rootOf p x = x := by
  rw [rootOf_eq_chase p hp x (x + 1) (by omega)]
  simp [chase, h]

theorem rootOf_step (p : Nat → Nat) (hp : WF p) (x : Nat) (h : p x ≠ x) :
    rootOf p x = rootOf p (p x) := by
  have hlt : p x < x := lt_of_le_of_ne (hp x) h
  obtain ⟨n, rfl⟩ : ∃ n, x = n + 1 := ⟨x - 1, by omega⟩
  show chase p (n + 1) (n + 1) = _
  simp only [chase]
  rw [if_neg h]
  exact (chase_fuel p hp (p (n + 1)) n (p (n + 1)) (by omega) le_rfl)

theorem rootOf_isRoot (p : Nat → Nat) (hp : WF p) (x : Nat) :
    p (rootOf p x) = rootOf p x := by
  induction x using Nat.strong_induction_on with
  | _ x ih =>
    by_cases h : p x = x
    · rw [rootOf_fix p hp x h]
      exact h
    · rw [rootOf_step p hp x h]
      exact ih (p x) (lt_of_le_of_ne (hp x) h)

theorem rootOf_le (p : Nat → Nat) (hp : WF p) (x : Nat) : rootOf p x ≤ x := by
  induction x using Nat.strong_induction_on with
  | _ x ih =>
    by_cases h : p x = x
    · rw [rootOf_fix p hp x h]
    · rw [rootOf_step p hp x h]
      have hlt : p x < x := lt_of_le_of_ne (hp x) h
      exact le_trans (ih (p x) hlt) (le_of_lt hlt)

theorem rootOf_rootOf (p : Nat → Nat) (hp : WF p) (x : Nat) :
    rootOf p (rootOf p x) = rootOf p x :=
  rootOf_fix p hp _ (rootOf_isRoot p hp x)

theorem WF_update (p : Nat → Nat) (hp : WF p) (b a : Nat) (h : a ≤ b) :
    WF (fun y => if y = b then a else p y) := by
  intro y
  by_cases hy : y = b
  · subst hy
    simpa using h
  · simpa [hy] using hp y

theorem rootOf_redirect (p : Nat → Nat) (hp : WF p) (x : Nat) (hx : p x ≠ x) :
    ∀ y, rootOf (fun z => if z = x then rootOf p x else p z) y = rootOf p y := by
  have hltx : p x < x := lt_of_le_of_ne (hp x) hx
  have hroot_lt : rootOf p x < x := by
    rw [rootOf_step p hp x hx]
    exact lt_of_le_of_lt (rootOf_le p hp (p x)) hltx
  have hp' : WF (fun z => if z = x then rootOf p x else p z) :=
    WF_update p hp x (rootOf p x) (le_of_lt hroot_lt)
  intro y
  induction y using Nat.strong_induction_on with
  | _ y ih =>
    by_cases hyx : y = x
    · subst hyx
      have hne : (fun z => if z = y then rootOf p y else p z) y ≠ y := by
        simpa using ne_of_lt hroot_lt
      rw [rootOf_step _ hp' y hne]
      rw [if_pos rfl, ih (rootOf p y) hroot_lt, rootOf_rootOf p hp y]
    · by_cases hfix : p y = y
      · have h1 : rootOf (fun z => if z = x then rootOf p x else p z) y = y :=
          rootOf_fix _ hp' y (by simpa [hyx] using hfix)
        rw [h1, rootOf_fix p hp y hfix]
      · have hne : (fun z => if z = x then rootOf p x else p z) y ≠ y := by
          simpa [hyx] using hfix
        rw [rootOf_step _ hp' y hne]
        rw [if_neg hyx, ih (p y) (lt_of_le_of_ne (hp y) hfix),
          rootOf_step p hp y hfix]

theorem rootOf_link (p : Nat → Nat) (hp : WF p) (a b : Nat)
    (ha : p a = a) (hb : p b = b) (hab : a < b) :
    ∀ y, rootOf (fun z => if z = b then a else p z) y =
      if rootOf p y = b then a else rootOf p y := by
  have hp' : WF (fun z => if z = b then a else p z) :=
    WF_update p hp b a (le_of_lt hab)
  intro y
  induction y using Nat.strong_induction_on with
  | _ y ih =>
    by_cases hfix : p y = y
    · by_cases hyb : y = b
      · subst hyb
        have hne : (fun z => if z = y then a else p z) y ≠ y := by
          simpa using ne_of_lt hab
        rw [rootOf_step _ hp' y hne]
        rw [if_pos rfl]
        have hra : rootOf (fun z => if z = y then a else p z) a = a := by
          refine rootOf_fix _ hp' a ?_
          simp [ne_of_lt hab, ha]
        rw [hra, rootOf_fix p hp y hfix, if_pos rfl]
      · have h1 : rootOf (fun z => if z = b then a else p z) y = y :=
          rootOf_fix _ hp' y (by simpa [hyb] using hfix)
        rw [h1, rootOf_fix p hp y hfix, if_neg hyb]
    · have hyb : y ≠ b := by
        intro hc
        subst hc
        exact hfix hb
      have hne : (fun z => if z = b then a else p z) y ≠ y := by
        simpa [hyb] using hfix
      rw [rootOf_step _ hp' y hne]
      rw [if_neg hyb, ih (p y) (lt_of_le_of_ne (hp y) hfix),
        rootOf_step p hp y hfix]

theorem compress_spec (root : Nat) :
    ∀ (fuel : Nat) (p : Nat → Nat) (x : Nat), WF p → rootOf p x = root →
      (∀ y, rootOf (compressPath root p fuel x) y = rootOf p y) ∧
      WF (compressPath root p fuel x) ∧
      (∀ y, compressPath root p fuel x y ≠ p y →
        p y ≠ y ∧ compressPath root p fuel x y = root) := by
  intro fuel
  induction fuel with
  | zero =>
    intro p x hp hroot
    refine ⟨fun y => rfl, hp, ?_⟩
    intro y hy
    exact absurd rfl hy
  | succ fuel ih =>
    intro p x hp hroot
    by_cases hx : p x = x
    · have hcp : compressPath root p (fuel + 1) x = p := by
        simp [compressPath, hx]
      rw [hcp]
      exact ⟨fun y => rfl, hp, fun y hy => absurd rfl hy⟩
    · simp only [compressPath, if_neg hx]
      have hltx : p x < x := lt_of_le_of_ne (hp x) hx
      have hroot_lt : root < x := by
        rw [← hroot, rootOf_step p hp x hx]
        exact lt_of_le_of_lt (rootOf_le p hp (p x)) hltx
      have hredirect := rootOf_redirect p hp x hx
      have hp1 : WF (fun z => if z = x then rootOf p x else p z) :=
        WF_update p hp x (rootOf p x) (le_of_lt (hroot ▸ hroot_lt))
      have hp1' : WF (fun z => if z = x then root else p z) := by
        rw [← hroot]
        exact hp1
      have hroot1 : rootOf (fun z => if z = x then root else p z) (p x) = root := by
        rw [← hroot]
        rw [hredirect (p x), ← rootOf_step p hp x hx]
      have ihr := ih (fun z => if z = x then root else p z) (p x) hp1' hroot1
      refine ⟨?_, ihr.2.1, ?_⟩
      · intro y
        rw [ihr.1 y, ← hroot, hredirect y]
      · intro y hy
        by_cases hchanged :
            compressPath root (fun z => if z = x then root else p z) fuel (p x) y ≠
              (fun z => if z = x then root else p z) y
        · have h3 := ihr.2.2 y hchanged
          refine ⟨?_, h3.2⟩
          by_cases hyx : y = x
          · subst hyx
            exact hx
          · have := h3.1
            simpa [hyx] using this
        · rw [not_not] at hchanged
          rw [hchanged] at hy ⊢
          by_cases hyx : y = x
          · subst hyx
            refine ⟨hx, ?_⟩
            simp
          · exfalso
            apply hy
            simp [hyx]

theorem rootOf_mem_keys (uf : UnionFind) (h : StateOK uf) :
    ∀ x, x ∈ uf.keys → rootOf uf.parent x ∈ uf.keys := by
  obtain ⟨hwf, hclosed, _, _⟩ := h
  intro x
  induction x using Nat.strong_induction_on with
  | _ x ih =>
    intro hx
    by_cases hfix : uf.parent x = x
    · rw [rootOf_fix _ hwf x hfix]
      exact hx
    · rw [rootOf_step _ hwf x hfix]
      exact ih (uf.parent x) (lt_of_le_of_ne (hwf x) hfix) (hclosed x hfix).2

theorem find_spec (uf : UnionFind) (x : Nat) (h : StateOK uf) :
    (uf.find x).1 = rootOf uf.parent x ∧
    StateOK (uf.find x).2 ∧
    (∀ y, rootOf (uf.find x).2.parent y = rootOf uf.parent y) ∧
    (∀ k, k ∈ (uf.find x).2.keys ↔ (k ∈ uf.keys ∨ k = x)) := by
  obtain ⟨hwf, hclosed, hself, hnodup⟩ := h
  by_cases hx : x ∈ uf.keys
  · have hcomp := compress_spec (rootOf uf.parent x) x uf.parent x hwf rfl
    have hfind : uf.find x =
        (rootOf uf.parent x,
          { uf with parent := compressPath (rootOf uf.parent x) uf.parent x x }) := by
      simp [UnionFind.find, hx]
    rw [hfind]
    refine ⟨rfl, ⟨hcomp.2.1, ?_, ?_, hnodup⟩, hcomp.1, ?_⟩
    · intro y hy
      dsimp only at hy ⊢
      by_cases hchanged : compressPath (rootOf uf.parent x) uf.parent x x y =
          uf.parent y
      · rw [hchanged] at hy ⊢
        exact hclosed y hy
      · have h3 := hcomp.2.2 y hchanged
        refine ⟨(hclosed y h3.1).1, ?_⟩
        rw [h3.2]
        exact rootOf_mem_keys uf ⟨hwf, hclosed, hself, hnodup⟩ x hx
    · intro y hy
      dsimp only at hy ⊢
      by_cases hchanged : compressPath (rootOf uf.parent x) uf.parent x x y =
          uf.parent y
      · rw [hchanged]
        exact hself y hy
      · exfalso
        exact hy (hclosed y (hcomp.2.2 y hchanged).1).1
    · intro k
      constructor
      · intro hk
        exact Or.inl hk
      · intro hk
        rcases hk with hk | rfl
        · exact hk
        · exact hx
  · have hfind : uf.find x = (x, { uf with keys := uf.keys ++ [x] }) := by
      simp [UnionFind.find, hx]
    rw [hfind]
    refine ⟨?_, ⟨hwf, ?_, ?_, ?_⟩, fun y => rfl, ?_⟩
    · rw [rootOf_fix _ hwf x (hself x hx)]
    · intro y hy
      have := hclosed y hy
      exact ⟨List.mem_append_left _ this.1, List.mem_append_left _ this.2⟩
    · intro y hy
      refine hself y ?_
      intro hc
      exact hy (List.mem_append_left _ hc)
    · simp [List.nodup_append, hnodup, hx]
    · intro k
      simp [List.mem_append]

theorem estep_symm (S : Set (Nat × Nat)) : ∀ a b, estep S a b → estep S b a := by
  intro a b h
  rcases h with h | h
  · exact Or.inr h
  · exact Or.inl h

theorem conn_refl (S : Set (Nat × Nat)) (x : Nat) : conn S x x :=
  Relation.ReflTransGen.refl

theorem conn_trans {S : Set (Nat × Nat)} {x y z : Nat}
    (h1 : conn S x y) (h2 : conn S y z) : conn S x z :=
  Relation.ReflTransGen.trans h1 h2

theorem conn_symm {S : Set (Nat × Nat)} {x y : Nat} (h : conn S x y) :
    conn S y x := by
  induction h with
  | refl => exact Relation.ReflTransGen.refl
  | tail _ hstep ih =>
    exact conn_trans (Relation.ReflTransGen.single (estep_symm S _ _ hstep)) ih

theorem conn_single {S : Set (Nat × Nat)} {x y : Nat} (h : estep S x y) :
    conn S x y :=
  Relation.ReflTransGen.single h

theorem conn_empty {x y : Nat} (h : conn (∅ : Set (Nat × Nat)) x y) : x = y := by
  induction h with
  | refl => rfl
  | tail _ hstep ih =>
    rcases hstep with hc | hc <;> cases hc

theorem conn_mono {S S' : Set (Nat × Nat)} (hsub : S ⊆ S') {x y : Nat}
    (h : conn S x y) : conn S' x y := by
  induction h with
  | refl => exact Relation.ReflTransGen.refl
  | tail _ hstep ih =>
    refine Relation.ReflTransGen.tail ih ?_
    rcases hstep with hc | hc
    · exact Or.inl (hsub hc)
    · exact Or.inr (hsub hc)

theorem estep_union_iff (S : Set (Nat × Nat)) (a b x y : Nat) :
    estep (S ∪ {(a, b)}) x y ↔
      estep S x y ∨ (x = a ∧ y = b) ∨ (x = b ∧ y = a) := by
  simp only [estep, Set.mem_union, Set.mem_singleton_iff, Prod.mk.injEq]
  tauto

theorem conn_union_iff (S : Set (Nat × Nat)) (a b x y : Nat) :
    conn (S ∪ {(a, b)}) x y ↔
      conn S x y ∨ (conn S x a ∧ conn S b y) ∨ (conn S x b ∧ conn S a y) := by
  constructor
  · intro h
    induction h with
    | refl => exact Or.inl (conn_refl S x)
    | tail _ hstep ih =>
      rename_i z w _
      rcases (estep_union_iff S a b z w).mp hstep with hs | ⟨rfl, rfl⟩ | ⟨rfl, rfl⟩
      · rcases ih with h1 | ⟨h1, h2⟩ | ⟨h1, h2⟩
        · exact Or.inl (Relation.ReflTransGen.tail h1 hs)
        · exact Or.inr (Or.inl ⟨h1, Relation.ReflTransGen.tail h2 hs⟩)
        · exact Or.inr (Or.inr ⟨h1, Relation.ReflTransGen.tail h2 hs⟩)
      · rcases ih with h1 | ⟨h1, h2⟩ | ⟨h1, h2⟩
        · exact Or.inr (Or.inl ⟨h1, conn_refl S _⟩)
        · exact Or.inr (Or.inl ⟨h1, conn_refl S _⟩)
        · exact Or.inl h1
      · rcases ih with h1 | ⟨h1, h2⟩ | ⟨h1, h2⟩
        · exact Or.inr (Or.inr ⟨h1, conn_refl S _⟩)
        · exact Or.inl h1
        · exact Or.inr (Or.inr ⟨h1, conn_refl S _⟩)
  · intro h
    have hsub : S ⊆ S ∪ {(a, b)} := Set.subset_union_left
    have hedge : conn (S ∪ {(a, b)}) a b :=
      conn_single (Or.inl (Set.mem_union_right S rfl))
    rcases h with h1 | ⟨h1, h2⟩ | ⟨h1, h2⟩
    · exact conn_mono hsub h1
    · exact conn_trans (conn_mono hsub h1)
        (conn_trans hedge (conn_mono hsub h2))
    · exact conn_trans (conn_mono hsub h1)
        (conn_trans (conn_symm hedge) (conn_mono hsub h2))

theorem Inv_congr {S S' : Set (Nat × Nat)} {uf : UnionFind} (h : S = S')
    (hi : Inv S uf) : Inv S' uf :=
  h ▸ hi

theorem init_inv : Inv (∅ : Set (Nat × Nat)) UnionFind.init := by
  refine ⟨⟨fun x => le_rfl, fun x hx => absurd rfl hx, fun x _ => rfl,
    List.nodup_nil⟩, ?_, ?_, ?_, ?_⟩
  · intro x
    constructor
    · intro hx
      cases hx
    · intro ⟨y, hy⟩
      rcases hy with hc | hc <;> cases hc
  · intro x
    have hid : rootOf UnionFind.init.parent x = x :=
      rootOf_fix _ (fun _ => le_rfl) x rfl
    rw [hid]
    exact conn_refl _ x
  · intro x y h
    rw [conn_empty h]
  · intro x y h
    have hxy := conn_empty h
    subst hxy
    have hid : rootOf UnionFind.init.parent x = x :=
      rootOf_fix _ (fun _ => le_rfl) x rfl
    rw [hid]

theorem link_inv (S : Set (Nat × Nat)) (uf2 : UnionFind) (a b c d u v : Nat)
    (hok : StateOK uf2)
    (hsound : ∀ x, conn S x (rootOf uf2.parent x))
    (hcompat : ∀ x y, conn S x y → rootOf uf2.parent x = rootOf uf2.parent y)
    (hminimal : ∀ x y, conn S x y → rootOf uf2.parent x ≤ y)
    (hcd : (c = a ∧ d = b) ∨ (c = b ∧ d = a))
    (hu : u = rootOf uf2.parent c) (hv : v = rootOf uf2.parent d)
    (huv : u < v)
    (hkeys : ∀ k, k ∈ uf2.keys ↔ ∃ y, estep (S ∪ {(a, b)}) k y) :
    Inv (S ∪ {(a, b)})
      { uf2 with parent := fun y => if y = v then u else uf2.parent y } := by
  obtain ⟨hwf, hclosed, hself, hnodup⟩ := hok
  have hpu : uf2.parent u = u := hu ▸ rootOf_isRoot uf2.parent hwf c
  have hpv : uf2.parent v = v := hv ▸ rootOf_isRoot uf2.parent hwf d
  have hlink := rootOf_link uf2.parent hwf u v hpu hpv huv
  have hsub : S ⊆ S ∪ {(a, b)} := Set.subset_union_left
  have hedge : conn (S ∪ {(a, b)}) c d := by
    rcases hcd with ⟨h1, h2⟩ | ⟨h1, h2⟩
    · rw [h1, h2]
      exact conn_single (Or.inl (Set.mem_union_right S rfl))
    · rw [h1, h2]
      exact conn_symm (conn_single (Or.inl (Set.mem_union_right S rfl)))
  have hcmem : c ∈ uf2.keys := by
    rw [hkeys]
    rcases hcd with ⟨h1, h2⟩ | ⟨h1, h2⟩
    · exact ⟨d, Or.inl (by rw [h1, h2]; exact Set.mem_union_right S rfl)⟩
    · exact ⟨d, Or.inr (by rw [h1, h2]; exact Set.mem_union_right S rfl)⟩
  have hdmem : d ∈ uf2.keys := by
    rw [hkeys]
    rcases hcd with ⟨h1, h2⟩ | ⟨h1, h2⟩
    · exact ⟨c, Or.inr (by rw [h1, h2]; exact Set.mem_union_right S rfl)⟩
    · exact ⟨c, Or.inl (by rw [h1, h2]; exact Set.mem_union_right S rfl)⟩
  have humem : u ∈ uf2.keys := by
    rw [hu]
    exact rootOf_mem_keys uf2 ⟨hwf, hclosed, hself, hnodup⟩ c hcmem
  have hvmem : v ∈ uf2.keys := by
    rw [hv]
    exact rootOf_mem_keys uf2 ⟨hwf, hclosed, hself, hnodup⟩ d hdmem
  have hwf' : WF (fun y => if y = v then u else uf2.parent y) :=
    WF_update uf2.parent hwf v u (le_of_lt huv)
  refine ⟨⟨hwf', ?_, ?_, hnodup⟩, hkeys, ?_, ?_, ?_⟩
  · intro y hy
    dsimp only at hy ⊢
    by_cases hyv : y = v
    · subst hyv
      rw [if_pos rfl]
      exact ⟨hvmem, humem⟩
    · rw [if_neg hyv] at hy ⊢
      exact hclosed y hy
  · intro y hy
    dsimp only at hy ⊢
    have hyv : y ≠ v := fun hc => hy (hc ▸ hvmem)
    rw [if_neg hyv]
    exact hself y hy
  · intro x
    dsimp only
    rw [hlink x]
    by_cases hxv : rootOf uf2.parent x = v
    · rw [if_pos hxv]
      have h1 : conn (S ∪ {(a, b)}) x v := hxv ▸ conn_mono hsub (hsound x)
      have h2 : conn (S ∪ {(a, b)}) v d := by
        rw [hv]
        exact conn_symm (conn_mono hsub (hsound d))
      have h3 : conn (S ∪ {(a, b)}) c u := by
        rw [hu]
        exact conn_mono hsub (hsound c)
      exact conn_trans h1 (conn_trans h2 (conn_trans (conn_symm hedge) h3))
    · rw [if_neg hxv]
      exact conn_mono hsub (hsound x)
  · intro x y hconn
    dsimp only
    rw [hlink x, hlink y]
    have hca : rootOf uf2.parent a = u ∨ rootOf uf2.parent a = v := by
      rcases hcd with ⟨h1, h2⟩ | ⟨h1, h2⟩
      · exact Or.inl (by rw [← h1, ← hu])
      · exact Or.inr (by rw [← h2, ← hv])
    have hcb : rootOf uf2.parent b = u ∨ rootOf uf2.parent b = v := by
      rcases hcd with ⟨h1, h2⟩ | ⟨h1, h2⟩
      · exact Or.inr (by rw [← h2, ← hv])
      · exact Or.inl (by rw [← h1, ← hu])
    have huvne : u ≠ v := ne_of_lt huv
    rcases (conn_union_iff S a b x y).mp hconn with h1 | ⟨h1, h2⟩ | ⟨h1, h2⟩
    · rw [hcompat x y h1]
    · have hx := hcompat x a h1
      have hy := hcompat b y h2
      rcases hca with hra | hra <;> rcases hcb with hrb | hrb <;>
        rw [hx, hra, ← hy, hrb] <;> simp [huvne]
    · have hx := hcompat x b h1
      have hy := hcompat a y h2
      rcases hca with hra | hra <;> rcases hcb with hrb | hrb <;>
        rw [hx, hrb, ← hy, hra] <;> simp [huvne]
  · intro x y hconn
    dsimp only
    rw [hlink x]
    have hvley : ∀ z, conn S z y → rootOf uf2.parent z ≤ y := fun z hz =>
      hminimal z y hz
    have hule : u ≤ v := le_of_lt huv
    have huc : rootOf uf2.parent c = u := hu.symm
    have hvd : rootOf uf2.parent d = v := hv.symm
    rcases (conn_union_iff S a b x y).mp hconn with h1 | ⟨h1, h2⟩ | ⟨h1, h2⟩
    · by_cases hxv : rootOf uf2.parent x = v
      · rw [if_pos hxv]
        have := hminimal x y h1
        omega
      · rw [if_neg hxv]
        exact hminimal x y h1
    · have hxa := hcompat x a h1
      have hby := hminimal b y h2
      have hab2 : rootOf uf2.parent a = u ∨ rootOf uf2.parent a = v := by
        rcases hcd with ⟨h1, h2⟩ | ⟨h1, h2⟩
        · exact Or.inl (by rw [← h1, ← hu])
        · exact Or.inr (by rw [← h2, ← hv])
      have hbb2 : rootOf uf2.parent b = u ∨ rootOf uf2.parent b = v := by
        rcases hcd with ⟨h1, h2⟩ | ⟨h1, h2⟩
        · exact Or.inr (by rw [← h2, ← hv])
        · exact Or.inl (by rw [← h1, ← hu])
      rcases hab2 with hra | hra <;> rcases hbb2 with hrb | hrb <;>
        rw [hxa, hra] <;> simp [ne_of_lt huv] <;> omega
    · have hxb := hcompat x b h1
      have hay := hminimal a y h2
      have hab2 : rootOf uf2.parent a = u ∨ rootOf uf2.parent a = v := by
        rcases hcd with ⟨h1, h2⟩ | ⟨h1, h2⟩
        · exact Or.inl (by rw [← h1, ← hu])
        · exact Or.inr (by rw [← h2, ← hv])
      have hbb2 : rootOf uf2.parent b = u ∨ rootOf uf2.parent b = v := by
        rcases hcd with ⟨h1, h2⟩ | ⟨h1, h2⟩
        · exact Or.inr (by rw [← h2, ← hv])
        · exact Or.inl (by rw [← h1, ← hu])
      rcases hab2 with hra | hra <;> rcases hbb2 with hrb | hrb <;>
        rw [hxb, hrb] <;> simp [ne_of_lt huv] <;> omega

theorem union_inv (S : Set (Nat × Nat)) (uf : UnionFind) (a b : Nat)
    (h : Inv S uf) : Inv (S ∪ {(a, b)}) (uf.union a b) := by
  obtain ⟨hok, hkeysIff, hsound, hcompat, hminimal⟩ := h
  have hfa := find_spec uf a hok
  have hfb := find_spec (uf.find a).2 b hfa.2.1
  have hok2 : StateOK ((uf.find a).2.find b).2 := hfb.2.1
  have hroots2 : ∀ y, rootOf ((uf.find a).2.find b).2.parent y =
      rootOf uf.parent y := by
    intro y
    rw [hfb.2.2.1 y, hfa.2.2.1 y]
  have hkeys2 : ∀ k, k ∈ ((uf.find a).2.find b).2.keys ↔
      ∃ y, estep (S ∪ {(a, b)}) k y := by
    intro k
    rw [hfb.2.2.2 k, hfa.2.2.2 k]
    constructor
    · intro hk
      rcases hk with (hk | hka) | hkb
      · obtain ⟨y, hy⟩ := (hkeysIff k).mp hk
        exact ⟨y, (estep_union_iff S a b k y).mpr (Or.inl hy)⟩
      · exact ⟨b, (estep_union_iff S a b k b).mpr (Or.inr (Or.inl ⟨hka, rfl⟩))⟩
      · exact ⟨a, (estep_union_iff S a b k a).mpr (Or.inr (Or.inr ⟨hkb, rfl⟩))⟩
    · intro ⟨y, hy⟩
      rcases (estep_union_iff S a b k y).mp hy with hs | ⟨hka, _⟩ | ⟨hkb, _⟩
      · exact Or.inl (Or.inl ((hkeysIff k).mpr ⟨y, hs⟩))
      · exact Or.inl (Or.inr hka)
      · exact Or.inr hkb
  have hsound2 : ∀ x, conn S x (rootOf ((uf.find a).2.find b).2.parent x) := by
    intro x
    rw [hroots2 x]
    exact hsound x
  have hcompat2 : ∀ x y, conn S x y →
      rootOf ((uf.find a).2.find b).2.parent x =
        rootOf ((uf.find a).2.find b).2.parent y := by
    intro x y hxy
    rw [hroots2 x, hroots2 y]
    exact hcompat x y hxy
  have hminimal2 : ∀ x y, conn S x y →
      rootOf ((uf.find a).2.find b).2.parent x ≤ y := by
    intro x y hxy
    rw [hroots2 x]
    exact hminimal x y hxy
  have hval_a : (uf.find a).1 = rootOf ((uf.find a).2.find b).2.parent a := by
    rw [hroots2 a]
    exact hfa.1
  have hval_b : ((uf.find a).2.find b).1 =
      rootOf ((uf.find a).2.find b).2.parent b := by
    rw [hroots2 b, hfb.1, hfa.2.2.1 b]
  show Inv (S ∪ {(a, b)}) (uf.union a b)
  unfold UnionFind.union
  by_cases heq : (uf.find a).1 = ((uf.find a).2.find b).1
  · rw [if_pos heq]
    have hab : rootOf ((uf.find a).2.find b).2.parent a =
        rootOf ((uf.find a).2.find b).2.parent b := by
      rw [← hval_a, ← hval_b, heq]
    have hsub : S ⊆ S ∪ {(a, b)} := Set.subset_union_left
    refine ⟨hok2, hkeys2, ?_, ?_, ?_⟩
    · intro x
      exact conn_mono hsub (hsound2 x)
    · intro x y hxy
      rcases (conn_union_iff S a b x y).mp hxy with h1 | ⟨h1, h2⟩ | ⟨h1, h2⟩
      · exact hcompat2 x y h1
      · rw [hcompat2 x a h1, hab, hcompat2 b y h2]
      · rw [hcompat2 x b h1, ← hab, hcompat2 a y h2]
    · intro x y hxy
      rcases (conn_union_iff S a b x y).mp hxy with h1 | ⟨h1, h2⟩ | ⟨h1, h2⟩
      · exact hminimal2 x y h1
      · rw [hcompat2 x a h1, hab]
        exact hminimal2 b y h2
      · rw [hcompat2 x b h1, ← hab]
        exact hminimal2 a y h2
  · rw [if_neg heq]
    by_cases hlt : (uf.find a).1 < ((uf.find a).2.find b).1
    · rw [if_pos hlt]
      exact link_inv S ((uf.find a).2.find b).2 a b a b
        (uf.find a).1 ((uf.find a).2.find b).1
        hok2 hsound2 hcompat2 hminimal2 (Or.inl ⟨rfl, rfl⟩)
        hval_a hval_b hlt hkeys2
    · rw [if_neg hlt]
      have hgt : ((uf.find a).2.find b).1 < (uf.find a).1 := by
        rcases Nat.lt_trichotomy (uf.find a).1 ((uf.find a).2.find b).1 with
          h1 | h1 | h1
        · exact absurd h1 hlt
        · exact absurd h1 heq
        · exact h1
      exact link_inv S ((uf.find a).2.find b).2 a b b a
        ((uf.find a).2.find b).1 (uf.find a).1
        hok2 hsound2 hcompat2 hminimal2 (Or.inr ⟨rfl, rfl⟩)
        hval_b hval_a hgt hkeys2

theorem fold_inv : ∀ (l : List (Nat × Nat)) (S : Set (Nat × Nat)) (uf : UnionFind),
    Inv S uf →
    Inv (S ∪ {e | e ∈ l}) (l.foldl (fun s e => s.union e.1 e.2) uf) := by
  intro l
  induction l with
  | nil =>
    intro S uf h
    refine Inv_congr ?_ h
    ext e
    simp
  | cons e l ih =>
    intro S uf h
    simp only [List.foldl_cons]
    have h1 : Inv (S ∪ {(e.1, e.2)}) (uf.union e.1 e.2) := union_inv S uf e.1 e.2 h
    have h2 := ih (S ∪ {(e.1, e.2)}) (uf.union e.1 e.2) h1
    refine Inv_congr ?_ h2
    ext x
    simp only [Set.mem_union, Set.mem_singleton_iff, Set.mem_setOf_eq,
      List.mem_cons]
    constructor
    · intro hx
      rcases hx with (hx | hx) | hx
      · exact Or.inl hx
      · exact Or.inr (Or.inl (by rw [hx]))
      · exact Or.inr (Or.inr hx)
    · intro hx
      rcases hx with hx | hx | hx
      · exact Or.inl (Or.inl hx)
      · exact Or.inl (Or.inr (by rw [hx]))
      · exact Or.inr hx

theorem build_state_inv (l : List (Nat × Nat)) :
    Inv {e | e ∈ l} (l.foldl (fun s e => s.union e.1 e.2) UnionFind.init) := by
  have h := fold_inv l ∅ UnionFind.init init_inv
  refine Inv_congr ?_ h
  ext e
  simp

theorem roots_agree (S : Set (Nat × Nat)) (uf uf' : UnionFind)
    (h : Inv S uf) (h' : Inv S uf') :
    ∀ x, rootOf uf.parent x = rootOf uf'.parent x := by
  intro x
  have h1 : rootOf uf.parent x ≤ rootOf uf'.parent x :=
    h.minimal x (rootOf uf'.parent x) (h'.sound x)
  have h2 : rootOf uf'.parent x ≤ rootOf uf.parent x :=
    h'.minimal x (rootOf uf.parent x) (h.sound x)
  omega

theorem find_keys_of_mem (uf : UnionFind) (x : Nat) (hx : x ∈ uf.keys) :
    (uf.find x).2.keys = uf.keys := by
  simp [UnionFind.find, hx]

theorem groupFold_eq (r : Nat → Nat) :
    ∀ (l : List Nat) (acc : List (Nat × List Nat)) (st : UnionFind),
    (∀ x, x ∈ l → x ∈ st.keys) → StateOK st →
    (∀ y, rootOf st.parent y = r y) →
    (l.foldl (fun pr node =>
        let f := pr.2.find node
        (groupStep pr.1 f.1 node, f.2)) (acc, st)).1 =
      l.foldl (fun a node => groupStep a (r node) node) acc := by
  intro l
  induction l with
  | nil =>
    intro acc st _ _ _
    rfl
  | cons x l ih =>
    intro acc st hmem hok hr
    simp only [List.foldl_cons]
    have hfs := find_spec st x hok
    have hx : x ∈ st.keys := hmem x (List.mem_cons_self x l)
    have hkeys : (st.find x).2.keys = st.keys := find_keys_of_mem st x hx
    have hval : (st.find x).1 = r x := by rw [hfs.1, hr x]
    rw [hval]
    exact ih (groupStep acc (r x) x) (st.find x).2
      (fun y hy => hkeys ▸ hmem y (List.mem_cons_of_mem x hy))
      hfs.2.1
      (fun y => (hfs.2.2.1 y).trans (hr y))

theorem groupClusters_eq (uf : UnionFind) (h : StateOK uf) :
    (groupClusters uf).1 = pureGroup (rootOf uf.parent) uf.keys := by
  unfold groupClusters pureGroup
  exact groupFold_eq (rootOf uf.parent) uf.keys [] uf (fun x hx => hx) h
    (fun y => rfl)

theorem pureGroup_congr (r r' : Nat → Nat) (h : ∀ x, r x = r' x) :
    ∀ (ks : List Nat) (acc : List (Nat × List Nat)),
    ks.foldl (fun a node => groupStep a (r node) node) acc =
      ks.foldl (fun a node => groupStep a (r' node) node) acc := by
  intro ks
  induction ks with
  | nil => intro acc; rfl
  | cons k ks ih =>
    intro acc
    simp only [List.foldl_cons, h k]
    exact ih _

theorem lookupGroup_groupStep (acc : List (Nat × List Nat)) (root node q : Nat) :
    lookupGroup (groupStep acc root node) q =
      if root = q then
        match lookupGroup acc q with
        | some ms => some (ms ++ [node])
        | none => some [node]
      else lookupGroup acc q := by
  by_cases hrq : root = q
  · subst hrq
    induction acc with
    | nil => simp [groupStep, lookupGroup]
    | cons p rest ih =>
      obtain ⟨pr, pms⟩ := p
      by_cases hpr : pr = root
      · subst hpr
        simp [groupStep, lookupGroup]
      · simp [groupStep, lookupGroup, hpr, ih]
  · rw [if_neg hrq]
    induction acc with
    | nil => simp [groupStep, lookupGroup, hrq]
    | cons p rest ih =>
      obtain ⟨pr, pms⟩ := p
      by_cases hpr : pr = root
      · subst hpr
        simp [groupStep, lookupGroup, hrq]
      · simp [groupStep, lookupGroup, hpr, ih]

theorem lookupGroup_fold (r : Nat → Nat) :
    ∀ (ks : List Nat) (acc : List (Nat × List Nat)) (q : Nat),
    lookupGroup (ks.foldl (fun a node => groupStep a (r node) node) acc) q =
      match lookupGroup acc q with
      | some ms => some (ms ++ ks.filter (fun k => r k == q))
      | none =>
        if q ∈ ks.map r then some (ks.filter (fun k => r k == q)) else none := by
  intro ks
  induction ks with
  | nil =>
    intro acc q
    cases h : lookupGroup acc q <;> simp [h]
  | cons k ks ih =>
    intro acc q
    simp only [List.foldl_cons]
    rw [ih, lookupGroup_groupStep]
    cases h : lookupGroup acc q with
    | some ms =>
      by_cases hk : r k = q
      · rw [if_pos hk]
        have hfil : List.filter (fun j => r j == q) (k :: ks) =
            k :: List.filter (fun j => r j == q) ks := by
          rw [List.filter_cons, if_pos (by simp [hk])]
        dsimp only
        rw [hfil]
        simp [List.append_assoc]
      · rw [if_neg hk]
        dsimp only
        rw [List.filter_cons, if_neg (by simp [hk])]
    | none =>
      by_cases hk : r k = q
      · rw [if_pos hk]
        have hfil : List.filter (fun j => r j == q) (k :: ks) =
            k :: List.filter (fun j => r j == q) ks := by
          rw [List.filter_cons, if_pos (by simp [hk])]
        have hqmem : q ∈ List.map r (k :: ks) := by
          rw [List.map_cons, ← hk]
          exact List.mem_cons_self _ _
        dsimp only
        rw [hfil, if_pos hqmem]
        simp
      · rw [if_neg hk]
        dsimp only
        have hfilneg : List.filter (fun j => r j == q) (k :: ks) =
            List.filter (fun j => r j == q) ks := by
          rw [List.filter_cons, if_neg (by simp [hk])]
        rw [hfilneg, List.map_cons]
        have hiff : q ∈ r k :: List.map r ks ↔ q ∈ List.map r ks := by
          rw [List.mem_cons]
          exact or_iff_right (fun hc => hk hc.symm)
        rw [if_congr hiff rfl rfl]

theorem lookupGroup_pureGroup (r : Nat → Nat) (ks : List Nat) (q : Nat) :
    lookupGroup (pureGroup r ks) q =
      if q ∈ ks.map r then some (ks.filter (fun k => r k == q)) else none := by
  unfold pureGroup
  rw [lookupGroup_fold]
  rfl

theorem groupStep_fst (acc : List (Nat × List Nat)) (root node : Nat) :
    (groupStep acc root node).map Prod.fst =
      if root ∈ acc.map Prod.fst then acc.map Prod.fst
      else acc.map Prod.fst ++ [root] := by
  induction acc with
  | nil => simp [groupStep]
  | cons p rest ih =>
    obtain ⟨pr, pms⟩ := p
    by_cases hpr : pr = root
    · subst hpr
      simp [groupStep]
    · simp only [groupStep, if_neg hpr, List.map_cons, List.mem_cons]
      rw [ih]
      by_cases hmem : root ∈ rest.map Prod.fst
      · rw [if_pos hmem, if_pos (Or.inr hmem)]
      · rw [if_neg hmem, if_neg ?_]
        · simp
        · intro hc
          rcases hc with hc | hc
          · exact hpr hc.symm
          · exact hmem hc

theorem pureGroup_fst_nodup (r : Nat → Nat) :
    ∀ (ks : List Nat) (acc : List (Nat × List Nat)),
    (acc.map Prod.fst).Nodup →
    ((ks.foldl (fun a node => groupStep a (r node) node) acc).map Prod.fst).Nodup := by
  intro ks
  induction ks with
  | nil =>
    intro acc h
    exact h
  | cons k ks ih =>
    intro acc h
    simp only [List.foldl_cons]
    refine ih _ ?_
    rw [groupStep_fst]
    by_cases hmem : r k ∈ acc.map Prod.fst
    · rw [if_pos hmem]
      exact h
    · rw [if_neg hmem]
      refine List.Nodup.append h (List.nodup_singleton _) ?_
      intro a ha hb
      rw [List.mem_singleton] at hb
      exact hmem (hb ▸ ha)

theorem mem_iff_lookupGroup (A : List (Nat × List Nat))
    (hnd : (A.map Prod.fst).Nodup) (q : Nat) (ms : List Nat) :
    (q, ms) ∈ A ↔ lookupGroup A q = some ms := by
  induction A with
  | nil => simp [lookupGroup]
  | cons p rest ih =>
    obtain ⟨pr, pms⟩ := p
    simp only [List.map_cons, List.nodup_cons] at hnd
    by_cases hq : pr = q
    · subst hq
      rw [lookupGroup, if_pos rfl]
      constructor
      · intro h
        rcases List.mem_cons.mp h with h | h
        · have hsnd : ms = pms := congrArg Prod.snd h
          rw [hsnd]
        · exact absurd (List.mem_map_of_mem Prod.fst h) hnd.1
      · intro h
        have hms : pms = ms := Option.some.inj h
        rw [← hms]
        exact List.mem_cons_self _ _
    · rw [lookupGroup, if_neg hq, ← ih hnd.2]
      constructor
      · intro h
        rcases List.mem_cons.mp h with h | h
        · exact absurd (congrArg Prod.fst h).symm hq
        · exact h
      · exact fun h => List.mem_cons_of_mem _ h

theorem assoc_perm (A B : List (Nat × List Nat))
    (hA : (A.map Prod.fst).Nodup) (hB : (B.map Prod.fst).Nodup)
    (hlook : ∀ q, lookupGroup A q = lookupGroup B q) : A.Perm B := by
  rw [List.perm_ext_iff_of_nodup (List.Nodup.of_map _ hA) (List.Nodup.of_map _ hB)]
  intro ⟨q, ms⟩
  rw [mem_iff_lookupGroup A hA q ms, mem_iff_lookupGroup B hB q ms, hlook q]

theorem sorted_clusters_eq (A B : List (Nat × List Nat)) (hperm : A.Perm B)
    (hA : (A.map Prod.fst).Nodup) :
    A.insertionSort clusterLe = B.insertionSort clusterLe := by
  have hB : (B.map Prod.fst).Nodup := ((hperm.map Prod.fst).nodup_iff).mp hA
  have hp : (A.insertionSort clusterLe).Perm (B.insertionSort clusterLe) :=
    ((List.perm_insertionSort clusterLe A).trans hperm).trans
      (List.perm_insertionSort clusterLe B).symm
  have hndA : ((A.insertionSort clusterLe).map Prod.fst).Nodup :=
    (((List.perm_insertionSort clusterLe A).map Prod.fst).nodup_iff).mpr hA
  have hndB : ((B.insertionSort clusterLe).map Prod.fst).Nodup :=
    (((List.perm_insertionSort clusterLe B).map Prod.fst).nodup_iff).mpr hB
  have hstrict : ∀ (L : List (Nat × List Nat)), L.Sorted clusterLe →
      (L.map Prod.fst).Nodup → L.Sorted (fun a b => a.1 < b.1 ∨ a = b) := by
    intro L hs hnd
    have hs' : L.Pairwise clusterLe := hs
    have hnd' : L.Pairwise (fun a b => a.1 ≠ b.1) := List.pairwise_map.mp hnd
    exact (List.Pairwise.and hs' hnd').imp
      (fun h => Or.inl (lt_of_le_of_ne h.1 h.2))
  haveI : IsAntisymm (Nat × List Nat) (fun a b => a.1 < b.1 ∨ a = b) :=
    ⟨fun a b h1 h2 => by
      rcases h1 with h1 | h1
      · rcases h2 with h2 | h2
        · omega
        · exact h2.symm
      · exact h1⟩
  exact List.eq_of_perm_of_sorted hp
    (hstrict _ (List.sorted_insertionSort clusterLe A) hndA)
    (hstrict _ (List.sorted_insertionSort clusterLe B) hndB)

theorem lookupGroup_map_snd (f : List Nat → List Nat) :
    ∀ (G : List (Nat × List Nat)) (q : Nat),
    lookupGroup (G.map (fun rc => (rc.1, f rc.2))) q =
      Option.map f (lookupGroup G q) := by
  intro G
  induction G with
  | nil => intro q; rfl
  | cons p rest ih =>
    intro q
    obtain ⟨pr, pms⟩ := p
    by_cases hq : pr = q
    · simp [lookupGroup, hq]
    · simp [lookupGroup, hq, ih]

theorem map_fst_map_snd (f : List Nat → List Nat) (G : List (Nat × List Nat)) :
    (G.map (fun rc => (rc.1, f rc.2))).map Prod.fst = G.map Prod.fst := by
  induction G with
  | nil => rfl
  | cons p rest ih => simp [ih]

theorem keys_perm (S : Set (Nat × Nat)) (uf uf' : UnionFind)
    (h : Inv S uf) (h' : Inv S uf') : uf.keys.Perm uf'.keys := by
  rw [List.perm_ext_iff_of_nodup h.ok.2.2.2 h'.ok.2.2.2]
  intro k
  rw [h.keysIff k, h'.keysIff k]

theorem build_eq_sort (edges : List (Nat × Nat)) :
    build_duplicate_clusters edges =
      ((pureGroup
          (rootOf (edges.foldl (fun s e => s.union e.1 e.2) UnionFind.init).parent)
          (edges.foldl (fun s e => s.union e.1 e.2) UnionFind.init).keys).map
        (fun rc => (rc.1, rc.2.insertionSort (fun a b => a ≤ b)))).insertionSort
        clusterLe := by
  show ((((groupClusters
      (edges.foldl (fun s e => s.union e.1 e.2) UnionFind.init)).1)).map
    (fun rc => (rc.1, rc.2.insertionSort (fun a b => a ≤ b)))).insertionSort
    clusterLe = _
  rw [groupClusters_eq _ (build_state_inv edges).ok]

theorem pureGroup_map_fst_nodup (r : Nat → Nat) (ks : List Nat) :
    ((pureGroup r ks).map Prod.fst).Nodup :=
  pureGroup_fst_nodup r ks [] List.nodup_nil

theorem lookupGroup_build (edges : List (Nat × Nat)) (q : Nat) :
    lookupGroup
      ((pureGroup
          (rootOf (edges.foldl (fun s e => s.union e.1 e.2) UnionFind.init).parent)
          (edges.foldl (fun s e => s.union e.1 e.2) UnionFind.init).keys).map
        (fun rc => (rc.1, rc.2.insertionSort (fun a b => a ≤ b)))) q =
      Option.map (fun ms => ms.insertionSort (fun a b => a ≤ b))
        (lookupGroup
          (pureGroup
            (rootOf (edges.foldl (fun s e => s.union e.1 e.2) UnionFind.init).parent)
            (edges.foldl (fun s e => s.union e.1 e.2) UnionFind.init).keys) q) :=
  lookupGroup_map_snd _ _ q

theorem build_roots_agree (edges edges' : List (Nat × Nat))
    (h : edges.Perm edges') :
    ∀ x, rootOf ((edges.foldl (fun s e => s.union e.1 e.2) UnionFind.init).parent) x
      = rootOf ((edges'.foldl (fun s e => s.union e.1 e.2) UnionFind.init).parent) x := by
  have hSeq : edgeSet edges = edgeSet edges' := by
    ext e
    exact h.mem_iff
  exact roots_agree (edgeSet edges) _ _ (build_state_inv edges)
    (Inv_congr hSeq.symm (build_state_inv edges'))

theorem build_duplicate_clusters_perm (edges edges' : List (Nat × Nat))
    (h : edges.Perm edges') :
    build_duplicate_clusters edges = build_duplicate_clusters edges' := by
  have hSeq : edgeSet edges = edgeSet edges' := by
    ext e
    exact h.mem_iff
  have hinv : Inv (edgeSet edges)
      (edges.foldl (fun s e => s.union e.1 e.2) UnionFind.init) :=
    build_state_inv edges
  have hinv' : Inv (edgeSet edges)
      (edges'.foldl (fun s e => s.union e.1 e.2) UnionFind.init) :=
    Inv_congr hSeq.symm (build_state_inv edges')
  have hroots := build_roots_agree edges edges' h
  have hkperm := keys_perm (edgeSet edges) _ _ hinv hinv'
  rw [build_eq_sort edges, build_eq_sort edges']
  have hr' : pureGroup
      (rootOf (edges'.foldl (fun s e => s.union e.1 e.2) UnionFind.init).parent)
      (edges'.foldl (fun s e => s.union e.1 e.2) UnionFind.init).keys =
      pureGroup
      (rootOf (edges.foldl (fun s e => s.union e.1 e.2) UnionFind.init).parent)
      (edges'.foldl (fun s e => s.union e.1 e.2) UnionFind.init).keys := by
    unfold pureGroup
    exact pureGroup_congr _ _ (fun x => (hroots x).symm) _ []
  rw [hr']
  apply sorted_clusters_eq
  · apply assoc_perm
    · rw [map_fst_map_snd]
      exact pureGroup_map_fst_nodup _ _
    · rw [map_fst_map_snd]
      exact pureGroup_map_fst_nodup _ _
    · intro q
      rw [lookupGroup_map_snd, lookupGroup_map_snd,
        lookupGroup_pureGroup, lookupGroup_pureGroup]
      by_cases hq : q ∈
          (edges.foldl (fun s e => s.union e.1 e.2) UnionFind.init).keys.map
            (rootOf (edges.foldl (fun s e => s.union e.1 e.2) UnionFind.init).parent)
      · rw [if_pos hq,
          if_pos ((hkperm.map _).mem_iff.mp hq)]
        simp only [Option.map_some']
        congr 1
        refine List.eq_of_perm_of_sorted ?_ (List.sorted_insertionSort _ _)
          (List.sorted_insertionSort _ _)
        exact ((List.perm_insertionSort _ _).trans
          (hkperm.filter _)).trans (List.perm_insertionSort _ _).symm
      · rw [if_neg hq,
          if_neg (fun hc => hq ((hkperm.map _).mem_iff.mpr hc))]
  · rw [map_fst_map_snd]
    exact pureGroup_map_fst_nodup _ _

theorem mem_build_iff (edges : List (Nat × Nat)) (q : Nat) (ms : List Nat) :
    (q, ms) ∈ build_duplicate_clusters edges ↔
      (q ∈ (edges.foldl (fun s e => s.union e.1 e.2) UnionFind.init).keys.map
          (rootOf (edges.foldl (fun s e => s.union e.1 e.2) UnionFind.init).parent)
        ∧ ms = ((edges.foldl (fun s e => s.union e.1 e.2) UnionFind.init).keys.filter
            (fun k => rootOf
              (edges.foldl (fun s e => s.union e.1 e.2) UnionFind.init).parent k == q)).insertionSort
            (fun a b => a ≤ b)) := by
  rw [build_eq_sort edges]
  rw [(List.perm_insertionSort clusterLe _).mem_iff]
  have hnd : (((pureGroup
      (rootOf (edges.foldl (fun s e => s.union e.1 e.2) UnionFind.init).parent)
      (edges.foldl (fun s e => s.union e.1 e.2) UnionFind.init).keys).map
      (fun rc => (rc.1, rc.2.insertionSort (fun a b => a ≤ b)))).map Prod.fst).Nodup := by
    rw [map_fst_map_snd]
    exact pureGroup_map_fst_nodup _ _
  rw [mem_iff_lookupGroup _ hnd, lookupGroup_build, lookupGroup_pureGroup]
  by_cases hq : q ∈
      (edges.foldl (fun s e => s.union e.1 e.2) UnionFind.init).keys.map
        (rootOf (edges.foldl (fun s e => s.union e.1 e.2) UnionFind.init).parent)
  · rw [if_pos hq]
    simp only [Option.map_some', Option.some.injEq]
    constructor
    · intro h
      exact ⟨hq, h.symm⟩
    · intro h
      exact h.2.symm
  · rw [if_neg hq]
    simp only [Option.map_none']
    constructor
    · intro h
      cases h
    · intro h
      exact absurd h.1 hq

theorem build_root_min (edges : List (Nat × Nat)) (q : Nat) (ms : List Nat)
    (h : (q, ms) ∈ build_duplicate_clusters edges) :
    q ∈ ms ∧ ∀ m ∈ ms, q ≤ m := by
  have hinv : Inv (edgeSet edges)
      (edges.foldl (fun s e => s.union e.1 e.2) UnionFind.init) :=
    build_state_inv edges
  have hwf : WF (edges.foldl (fun s e => s.union e.1 e.2) UnionFind.init).parent :=
    hinv.ok.1
  obtain ⟨hq, hms⟩ := (mem_build_iff edges q ms).mp h
  obtain ⟨k, hk, hrk⟩ := List.mem_map.mp hq
  have hrq : rootOf (edges.foldl (fun s e => s.union e.1 e.2) UnionFind.init).parent q
      = q := by
    rw [← hrk]
    exact rootOf_rootOf _ hwf k
  have hqkeys : q ∈ (edges.foldl (fun s e => s.union e.1 e.2) UnionFind.init).keys := by
    rw [← hrk]
    exact rootOf_mem_keys _ hinv.ok k hk
  constructor
  · rw [hms, (List.perm_insertionSort _ _).mem_iff]
    exact List.mem_filter.mpr ⟨hqkeys, by simp [hrq]⟩
  · intro m hm
    rw [hms, (List.perm_insertionSort _ _).mem_iff] at hm
    obtain ⟨_, hrm⟩ := List.mem_filter.mp hm
    have : rootOf (edges.foldl (fun s e => s.union e.1 e.2) UnionFind.init).parent m
        = q := by
      exact eq_of_beq hrm
    rw [← this]
    exact rootOf_le _ hwf m

theorem keyLt_asymm (x y : Int × Nat × Nat) (h1 : keyLt x y) (h2 : keyLt y x) :
    False := by
  obtain ⟨x1, x2, x3⟩ := x
  obtain ⟨y1, y2, y3⟩ := y
  unfold keyLt at h1 h2
  dsimp only at h1 h2
  omega

theorem canonKey_id (a b : CanonRow) (h : canonKey a = canonKey b) :
    a.id = b.id := by
  have h3 : (canonKey a).2.2 = (canonKey b).2.2 := congrArg (fun t => t.2.2) h
  exact h3

theorem choose_canonical_perm (rows rows' : List CanonRow)
    (hperm : rows.Perm rows') (hids : (rows.map CanonRow.id).Nodup) :
    choose_canonical_candidate rows = choose_canonical_candidate rows' := by
  unfold choose_canonical_candidate
  have hids' : (rows'.map CanonRow.id).Nodup :=
    ((hperm.map CanonRow.id).nodup_iff).mp hids
  have hstrict : ∀ (L : List CanonRow), L.Sorted canonLe →
      (L.map CanonRow.id).Nodup →
      L.Sorted (fun a b => keyLt (canonKey a) (canonKey b) ∨ a = b) := by
    intro L hs hnd
    have hs' : L.Pairwise canonLe := hs
    have hnd' : L.Pairwise (fun a b => a.id ≠ b.id) := List.pairwise_map.mp hnd
    refine (List.Pairwise.and hs' hnd').imp ?_
    intro a b hab
    rcases hab.1 with hk | hk
    · exact Or.inl hk
    · exact absurd (canonKey_id a b hk) hab.2
  haveI : IsAntisymm CanonRow
      (fun a b => keyLt (canonKey a) (canonKey b) ∨ a = b) :=
    ⟨fun a b h1 h2 => by
      rcases h1 with h1 | h1
      · rcases h2 with h2 | h2
        · exact absurd h2 (fun hc => keyLt_asymm _ _ h1 hc)
        · exact h2.symm
      · exact h1⟩
  have hndA : ((rows.insertionSort canonLe).map CanonRow.id).Nodup :=
    (((List.perm_insertionSort canonLe rows).map CanonRow.id).nodup_iff).mpr hids
  have hndB : ((rows'.insertionSort canonLe).map CanonRow.id).Nodup :=
    (((List.perm_insertionSort canonLe rows').map CanonRow.id).nodup_iff).mpr hids'
  have hsorteq : rows.insertionSort canonLe = rows'.insertionSort canonLe := by
    refine List.eq_of_perm_of_sorted
      (((List.perm_insertionSort canonLe rows).trans hperm).trans
        (List.perm_insertionSort canonLe rows').symm)
      (hstrict _ (List.sorted_insertionSort canonLe rows) hndA)
      (hstrict _ (List.sorted_insertionSort canonLe rows') hndB)
  rw [hsorteq]

theorem crossPairs_perm (files files' : List TrackRow)
    (h : files.Perm files')
    (f : TrackRow → TrackRow → Option AliasSignal) :
    (crossPairs files f).Perm (crossPairs files' f) := by
  unfold crossPairs
  exact (List.Perm.flatMap_left files (fun a _ => h.filterMap (f a))).trans
    (h.flatMap_right _)

theorem alias_pairs_all_perm (files files' : List TrackRow)
    (h : files.Perm files') :
    (alias_pairs_all files).Perm (alias_pairs_all files') := by
  unfold alias_pairs_all alias_pairs_sha256 alias_pairs_fingerprint
    alias_pairs_artist_title alias_pairs_album_title
  exact ((((crossPairs_perm files files' h _).append
    (crossPairs_perm files files' h _)).append
    (crossPairs_perm files files' h _)).append
    (crossPairs_perm files files' h _))

theorem alias_pair_confidence_perm (files files' : List TrackRow)
    (h : files.Perm files') :
    (alias_pair_confidence files).Perm (alias_pair_confidence files') := by
  have hall := alias_pairs_all_perm files files' h
  have hfun : ∀ pr ∈ ((alias_pairs_all files').map
      (fun e => (e.file_id, e.other_file_id))).dedup,
      (fun pr => PairConfidence.mk pr.1 pr.2
        ((alias_pairs_all files).filter
          (fun e => (e.file_id, e.other_file_id) == pr)).length
        ((((alias_pairs_all files).filter
          (fun e => (e.file_id, e.other_file_id) == pr)).map
            (fun e => e.strength)).sum)) pr =
      (fun pr => PairConfidence.mk pr.1 pr.2
        ((alias_pairs_all files').filter
          (fun e => (e.file_id, e.other_file_id) == pr)).length
        ((((alias_pairs_all files').filter
          (fun e => (e.file_id, e.other_file_id) == pr)).map
            (fun e => e.strength)).sum)) pr := by
    intro pr _
    have hsig := hall.filter (fun e => (e.file_id, e.other_file_id) == pr)
    dsimp only
    rw [hsig.length_eq, (hsig.map (fun e => e.strength)).sum_eq]
  have h1 := ((hall.map (fun e => (e.file_id, e.other_file_id))).dedup).map
    (fun pr => PairConfidence.mk pr.1 pr.2
      ((alias_pairs_all files).filter
        (fun e => (e.file_id, e.other_file_id) == pr)).length
      ((((alias_pairs_all files).filter
        (fun e => (e.file_id, e.other_file_id) == pr)).map
          (fun e => e.strength)).sum))
  have h2 := List.map_congr_left hfun
  rw [h2] at h1
  exact h1

theorem strong_edge_pairs_perm (files files' : List TrackRow)
    (h : files.Perm files') :
    (strong_edge_pairs files).Perm (strong_edge_pairs files') := by
  unfold strong_edge_pairs alias_strong_edges
  exact (((alias_pair_confidence_perm files files' h).filter _).map _)

theorem conn_of_estep (S : Set (Nat × Nat)) (a b : Nat) (h : estep S a b) :
    conn S a b :=
  Relation.ReflTransGen.single h

theorem edge_in_cluster (edges : List (Nat × Nat)) (a b : Nat)
    (h : (a, b) ∈ edges) :
    ∃ p ∈ build_duplicate_clusters edges, a ∈ p.2 ∧ b ∈ p.2 := by
  have hinv : Inv (edgeSet edges)
      (edges.foldl (fun s e => s.union e.1 e.2) UnionFind.init) :=
    build_state_inv edges
  have hstep : estep (edgeSet edges) a b := Or.inl h
  have hconn : conn (edgeSet edges) a b := conn_of_estep _ _ _ hstep
  have hakeys : a ∈ (edges.foldl (fun s e => s.union e.1 e.2) UnionFind.init).keys :=
    (hinv.keysIff a).mpr ⟨b, hstep⟩
  have hbkeys : b ∈ (edges.foldl (fun s e => s.union e.1 e.2) UnionFind.init).keys :=
    (hinv.keysIff b).mpr ⟨a, Or.inr h⟩
  have hrab : rootOf (edges.foldl (fun s e => s.union e.1 e.2) UnionFind.init).parent a
      = rootOf (edges.foldl (fun s e => s.union e.1 e.2) UnionFind.init).parent b :=
    hinv.compat a b hconn
  refine ⟨(rootOf (edges.foldl (fun s e => s.union e.1 e.2) UnionFind.init).parent a,
    ((edges.foldl (fun s e => s.union e.1 e.2) UnionFind.init).keys.filter
      (fun k => rootOf (edges.foldl (fun s e => s.union e.1 e.2) UnionFind.init).parent k
        == rootOf (edges.foldl
          (fun s e => s.union e.1 e.2) UnionFind.init).parent a)).insertionSort
      (fun x y => x ≤ y)), ?_, ?_, ?_⟩
  · exact (mem_build_iff edges _ _).mpr
      ⟨List.mem_map.mpr ⟨a, hakeys, rfl⟩, rfl⟩
  · rw [(List.perm_insertionSort _ _).mem_iff]
    exact List.mem_filter.mpr ⟨hakeys, by simp⟩
  · rw [(List.perm_insertionSort _ _).mem_iff]
    exact List.mem_filter.mpr ⟨hbkeys, by simp [hrab]⟩

/-- C9: for a fixed set of strong edges, clustering is order-invariant and
deterministic: permuting the edge list leaves `build_duplicate_clusters`
unchanged (identical membership) and leaves the union-find root assignment
unchanged; in every produced cluster the root is a member and is the
numerically smallest member id (the smaller root always wins on union); and
`choose_canonical_candidate` picks the same canonical id from any
reordering of a cluster's member rows (with their distinct ids). -/
theorem clustering_order_invariant (edges edges' : List (Nat × Nat))
    (hedges : edges.Perm edges')
    (rows rows' : List CanonRow) (hrows : rows.Perm rows')
    (hids : (rows.map CanonRow.id).Nodup) :
    build_duplicate_clusters edges = build_duplicate_clusters edges' ∧
    (∀ x, rootOf ((edges.foldl (fun s e => s.union e.1 e.2) UnionFind.init).parent) x
      = rootOf ((edges'.foldl (fun s e => s.union e.1 e.2) UnionFind.init).parent) x) ∧
    (∀ q ms, (q, ms) ∈ build_duplicate_clusters edges →
      q ∈ ms ∧ ∀ m ∈ ms, q ≤ m) ∧
    choose_canonical_candidate rows = choose_canonical_candidate rows' :=
  ⟨build_duplicate_clusters_perm edges edges' hedges,
   build_roots_agree edges edges' hedges,
   fun q ms h => build_root_min edges q ms h,
   choose_canonical_perm rows rows' hrows hids⟩

theorem strong_edges_hash_only :
    strong_edge_pairs [TrackRow.mk 1 (some "h") none [] [] [],
      TrackRow.mk 2 (some "h") none [] [] []] = [] := by
  have h1 : alias_pair_confidence [TrackRow.mk 1 (some "h") none [] [] [],
      TrackRow.mk 2 (some "h") none [] [] []] =
      [PairConfidence.mk 1 2 1 ([(1.0 : ℚ)]).sum] := rfl
  unfold strong_edge_pairs alias_strong_edges
  rw [h1, List.filter_cons]
  have hcond : ¬(2 ≤ (PairConfidence.mk 1 2 1 ([(1.0 : ℚ)]).sum).signal_count ∨
      (1.5 : ℚ) ≤ (PairConfidence.mk 1 2 1 ([(1.0 : ℚ)]).sum).confidence_score) := by
    dsimp only
    rw [List.sum_singleton]
    norm_num
  rw [decide_eq_false hcond]
  rfl

theorem strong_edges_two_signals :
    strong_edge_pairs [TrackRow.mk 1 (some "h") (some "f") [] [] [],
      TrackRow.mk 2 (some "h") (some "f") [] [] []] = [(1, 2)] := rfl

/-- C1 counterexample: two tracks related by nothing but an equal non-null
`sha256` produce a single alias signal of strength 1.0, which fails the
strong-edge promotion (it needs two signal types or aggregate strength at
least 1.5), so the clustering pipeline emits no edge and no cluster contains
the pair -- refuting the claim that equal non-null hashes alone always land
in one cluster. -/
theorem hash_pair_not_clustered_counterexample :
    (TrackRow.mk 1 (some "h") none [] [] []).sha256 =
        (TrackRow.mk 2 (some "h") none [] [] []).sha256 ∧
    (TrackRow.mk 1 (some "h") none [] [] []).sha256 ≠ none ∧
    ¬ ∃ p ∈ build_duplicate_clusters (strong_edge_pairs
        [TrackRow.mk 1 (some "h") none [] [] [],
         TrackRow.mk 2 (some "h") none [] [] []]),
      (TrackRow.mk 1 (some "h") none [] [] []).id ∈ p.2 ∧
      (TrackRow.mk 2 (some "h") none [] [] []).id ∈ p.2 := by
  refine ⟨rfl, by simp, ?_⟩
  rw [strong_edges_hash_only]
  rintro ⟨p, hp, _⟩
  have hnil : build_duplicate_clusters ([] : List (Nat × Nat)) = [] := rfl
  rw [hnil] at hp
  exact absurd hp (List.not_mem_nil p)

/-- C1 (amended): whenever the id pair of two tracks is promoted to a strong
edge (at least two signal types, or aggregate strength at least 1.5 -- an
equal non-null hash alone contributes one signal of strength 1.0 and does
not qualify), the two ids are members of the same duplicate cluster, and
this holds for any reordering of the scanned track table. -/
theorem hash_cluster_amended (t t' : List TrackRow) (hperm : t.Perm t')
    (a b : Nat) (hedge : (a, b) ∈ strong_edge_pairs t) :
    ∃ p ∈ build_duplicate_clusters (strong_edge_pairs t'),
      a ∈ p.2 ∧ b ∈ p.2 := by
  have h1 := edge_in_cluster (strong_edge_pairs t) a b hedge
  rwa [build_duplicate_clusters_perm (strong_edge_pairs t) (strong_edge_pairs t')
    (strong_edge_pairs_perm t t' hperm)] at h1

/-- Closed instance of the amended C1: two tracks sharing hash and
fingerprint (two signal types, hence a strong edge) are co-clustered even
after swapping the table order. -/
theorem hash_cluster_amended_witness :
    ∃ p ∈ build_duplicate_clusters (strong_edge_pairs
        [TrackRow.mk 2 (some "h") (some "f") [] [] [],
         TrackRow.mk 1 (some "h") (some "f") [] [] []]),
      1 ∈ p.2 ∧ 2 ∈ p.2 :=
  hash_cluster_amended
    [TrackRow.mk 1 (some "h") (some "f") [] [] [],
     TrackRow.mk 2 (some "h") (some "f") [] [] []]
    [TrackRow.mk 2 (some "h") (some "f") [] [] [],
     TrackRow.mk 1 (some "h") (some "f") [] [] []]
    (by decide) 1 2
    (strong_edges_two_signals ▸ List.mem_singleton_self ((1, 2) : Nat × Nat))

/-- Closed instance of C9: the edge list `[(2,1),(3,2)]` against its
reversal, and a two-row member list against its reversal. -/
theorem clustering_order_invariant_witness :
    build_duplicate_clusters [(2, 1), (3, 2)] =
        build_duplicate_clusters [(3, 2), (2, 1)] ∧
      (∀ x, rootOf (([(2, 1), (3, 2)] :
          List (Nat × Nat)).foldl (fun s e => s.union e.1 e.2) UnionFind.init).parent x
        = rootOf (([(3, 2), (2, 1)] :
          List (Nat × Nat)).foldl (fun s e => s.union e.1 e.2) UnionFind.init).parent x) ∧
      (∀ q ms, (q, ms) ∈ build_duplicate_clusters [(2, 1), (3, 2)] →
        q ∈ ms ∧ ∀ m ∈ ms, q ≤ m) ∧
      choose_canonical_candidate
          [⟨1, some "a", none, none, 7⟩, ⟨2, some "b", some "c", none, 3⟩] =
        choose_canonical_candidate
          [⟨2, some "b", some "c", none, 3⟩, ⟨1, some "a", none, none, 7⟩] :=
  clustering_order_invariant [(2, 1), (3, 2)] [(3, 2), (2, 1)]
    (by decide)
    [⟨1, some "a", none, none, 7⟩, ⟨2, some "b", some "c", none, 3⟩]
    [⟨2, some "b", some "c", none, 3⟩, ⟨1, some "a", none, none, 7⟩]
    (by decide)
    (by decide)

end Pedro
